import Mathlib

set_option maxHeartbeats 1000000
set_option maxRecDepth 16384

/-!
Verification development for the BackupX backup tool.

The Python sources are embedded shallowly: paths are modelled as a POSIX
`PurePath` (absolute flag plus the list of components obtained by splitting
the textual path on the separator — file names on a POSIX filesystem cannot
contain the separator, so this split is lossless), file contents are lists
of bytes (`Nat` below 256), and the effect of each operation on the
filesystem is recorded as an explicit event trace.
-/

/-- POSIX path: absolute flag plus components (split on the separator). -/
structure PurePath where
  absolute : Bool
  comps : List String
deriving DecidableEq, Repr

/-- Model of `os.path.normpath` on an absolute interpretation: drops empty
and `.` components, and resolves `..` by popping the component stack (at the
root, `..` is dropped, as `normpath` does for absolute paths). -/
def normComps (cs : List String) : List String :=
  cs.foldl (fun acc c =>
    if c = "" ∨ c = "." then acc
    else if c = ".." then acc.dropLast
    else acc ++ [c]) []

/-- Model of `os.path.join p q`: if `q` is absolute the join is `q` itself,
otherwise the components are concatenated (no normalisation). -/
def joinP (p q : PurePath) : PurePath :=
  if q.absolute then q else ⟨p.absolute, p.comps ++ q.comps⟩

/-- Model of `os.path.abspath p` for current working directory `cwd`
(assumed absolute): join with the cwd when relative, then normalise. -/
def abspathP (cwd p : PurePath) : PurePath :=
  ⟨true, normComps ((if p.absolute then [] else cwd.comps) ++ p.comps)⟩

/-- Function `is_within_directory` from `backupxLib/extract_zip_archive.py` lines 8-14
(the identical copy in `extract_7z_archive.py` lines 8-14): both paths are
made absolute and the check `commonpath([base]) == commonpath([base, target])`
holds exactly when the components of the absolute base are a prefix of the
components of the absolute target. -/
def is_within_directory (cwd base target : PurePath) : Bool :=
  (abspathP cwd base).comps.isPrefixOf (abspathP cwd target).comps

/-- Filesystem events produced by the extractors. -/
inductive ZEvent where
  | check (member : PurePath)
  | mkdir (dir : PurePath)
  | write (path : PurePath) (content : List Nat)
deriving DecidableEq, Repr

/-- Model of `os.path.dirname`: drop the last component. -/
def dirnameP (p : PurePath) : PurePath :=
  ⟨p.absolute, p.comps.dropLast⟩

/-- The events one ZIP member produces when its containment check passes:
the check, the `os.makedirs` of the parent directory, and the write of the
member's bytes at `os.path.join(destination, member)`
(`extract_zip_archive.py` lines 30-44). -/
def zipEntryEvents (dest : PurePath) (e : PurePath × List Nat) : List ZEvent :=
  [ZEvent.check e.1, ZEvent.mkdir (dirnameP (joinP dest e.1)),
   ZEvent.write (joinP dest e.1) e.2]

/-- Function `extract_zip_aes` from `backupxLib/extract_zip_archive.py` lines 16-50:
for each member in order, compute `target_path = os.path.join(destination,
member)`, abort with `sys.exit(1)` if `is_within_directory` fails, otherwise
create the parent directory and write the member's bytes.  The archive is
modelled as the list of (member name, member bytes) pairs in `namelist()`
order; the result is the produced event trace together with the exit
status. -/
def extract_zip_aes (cwd dest : PurePath) :
    List (PurePath × List Nat) → List ZEvent × Except Nat Unit
  | [] => ([], Except.ok ())
  | e :: rest =>
    if is_within_directory cwd dest (joinP dest e.1) then
      let r := extract_zip_aes cwd dest rest
      (zipEntryEvents dest e ++ r.1, r.2)
    else ([ZEvent.check e.1], Except.error 1)

/-- The check loop of `extract_7z` (`backupxLib/extract_7z_archive.py`
lines 28-33): every member name is checked before anything is written;
the first failing member aborts with `sys.exit(1)`. -/
def sevenZChecks (cwd dest : PurePath) :
    List (PurePath × List Nat) → List ZEvent × Bool
  | [] => ([], true)
  | e :: rest =>
    if is_within_directory cwd dest (joinP dest e.1) then
      let r := sevenZChecks cwd dest rest
      (ZEvent.check e.1 :: r.1, r.2)
    else ([ZEvent.check e.1], false)

/-- Function `extract_7z` from `backupxLib/extract_7z_archive.py` lines 16-41: run the
containment check over the whole name list first; only when every member
passes is `archive.extractall(path=destination_dir)` reached, which writes
every member under the destination. -/
def extract_7z (cwd dest : PurePath) (archive : List (PurePath × List Nat)) :
    List ZEvent × Except Nat Unit :=
  let c := sevenZChecks cwd dest archive
  if c.2 then
    (c.1 ++ archive.map (fun e => ZEvent.write (joinP dest e.1) e.2),
     Except.ok ())
  else (c.1, Except.error 1)

/-- The writes recorded in a trace. -/
def writesOf : List ZEvent → List (PurePath × List Nat)
  | [] => []
  | ZEvent.write p c :: rest => (p, c) :: writesOf rest
  | _ :: rest => writesOf rest

mutual
/-- A directory tree: regular files with byte contents, directories with
children.  Names are single path components (POSIX file names cannot
contain the separator). -/
inductive FTree where
  | file (name : String) (content : List Nat)
  | dir (name : String) (children : Forest)

/-- A list of sibling trees. -/
inductive Forest where
  | nil
  | cons (t : FTree) (ts : Forest)
end

/-- A usable file-system name: nonempty and not one of the special entries
`.` and `..` (no real directory listing ever produces those as entries). -/
def cleanNameB (n : String) : Bool := n != "" && n != "." && n != ".."

mutual
/-- Well-formedness of a tree: every name is a usable file-system name. -/
def wfTree : FTree → Bool
  | .file n _ => cleanNameB n
  | .dir n ch => cleanNameB n && wfForest ch

/-- Well-formedness of a forest. -/
def wfForest : Forest → Bool
  | .nil => true
  | .cons t ts => wfTree t && wfForest ts
end

mutual
/-- The regular files below a tree, with their paths relative to the parent
directory of the walk root: this is what `os.walk(source_path)` combined
with `arcname = os.path.relpath(filepath, start=parent_dir)`
(`create_zip_archive.py` lines 46-51) produces — the top-level directory
name is kept as the first component. -/
def treeFilesRel : FTree → List (List String × List Nat)
  | .file n c => [([n], c)]
  | .dir n ch => (forestFilesRel ch).map (fun pc => (n :: pc.1, pc.2))

/-- Files of a forest, relative to the shared parent. -/
def forestFilesRel : Forest → List (List String × List Nat)
  | .nil => []
  | .cons t ts => treeFilesRel t ++ forestFilesRel ts
end

/-- Function `create_zip_aes` from `backupxLib/create_zip_archive.py` lines 11-54 for
a directory source: each regular file below the source is added under the
archive name `os.path.relpath(filepath, start=parent_dir)` — its path
relative to the source's parent directory — with its bytes stored verbatim
(the ZIP container's store/deflate round-trip is the pyzipper library's
contract). -/
def create_zip_aes (t : FTree) : List (PurePath × List Nat) :=
  (treeFilesRel t).map (fun pc => (⟨false, pc.1⟩, pc.2))

/-- A small sample tree: `data/a.txt` and `data/sub/b.txt`. -/
def sampleTree : FTree :=
  FTree.dir "data"
    (Forest.cons (FTree.file "a.txt" [1, 2])
      (Forest.cons (FTree.dir "sub"
        (Forest.cons (FTree.file "b.txt" [3]) Forest.nil))
        Forest.nil))

/-- A sample archive holding a benign member, a `../../evil.txt` traversal
member, and a member after the traversal. -/
def slipArchive : List (PurePath × List Nat) :=
  [(⟨false, ["ok.txt"]⟩, [7]),
   (⟨false, ["..", "..", "evil.txt"]⟩, [9]),
   (⟨false, ["never.txt"]⟩, [5])]

/-- Kind of a directory entry at the extraction destination. -/
inductive FKind where
  | dirK
  | fileK
deriving DecidableEq, Repr

/-- The destination directory's listing: names mapped to their kind.  The
conflict renamer of `decypherx.py` only ever touches paths of the form
`os.path.join(destination, name)`, so this one-level map is the part of the
filesystem it can observe or change. -/
def lookupFs (fs : List (String × FKind)) (n : String) : Option FKind :=
  (fs.find? (fun e => e.1 == n)).map Prod.snd

/-- Model of `os.rename(destination/old, destination/new)`: re-key the entry. -/
def renameFs (fs : List (String × FKind)) (old new : String) :
    List (String × FKind) :=
  fs.map (fun e => if e.1 == old then (new, e.2) else e)

/-- Model of `os.path.splitext` on a single name (posixpath: split at the last dot,
but only when some character strictly before it is not a dot). -/
def splitExtName (s : String) : String × String :=
  let r := s.data.reverse
  match r.findIdx? (· = '.') with
  | none => (s, "")
  | some i =>
    let pre := (r.drop (i + 1)).reverse
    let suf := (r.take (i + 1)).reverse
    if pre.any (· ≠ '.') then (⟨pre⟩, ⟨suf⟩) else (s, "")

/-- The `while os.path.exists(new_path)` loop of the directory branch
(`decypherx.py` lines 76-81): candidates `base_old_1`, `base_old_2`, … until
a free name is found.  The fuel is always called with more than the number
of occupied names, so the fallback is unreachable. -/
def dirFreeLoop (fs : List (String × FKind)) (base : String) :
    Nat → Nat → String
  | 0, c => base ++ "_old_" ++ toString c
  | n + 1, c =>
    let cand := base ++ "_old_" ++ toString c
    if lookupFs fs cand = none then cand else dirFreeLoop fs base n (c + 1)

/-- Directory-branch rename target (`decypherx.py` lines 73-81): `base_old`
if free, else `base_old_<counter>` for the first free counter from 1. -/
def dirFreeName (fs : List (String × FKind)) (base : String) : String :=
  if lookupFs fs (base ++ "_old") = none then base ++ "_old"
  else dirFreeLoop fs base (fs.length + 1) 1

/-- The `while` loop of the flat-file branch (`decypherx.py` lines 104-107). -/
def fileFreeLoop (fs : List (String × FKind)) (base ext : String) :
    Nat → Nat → String
  | 0, c => base ++ "_old_" ++ toString c ++ ext
  | n + 1, c =>
    let cand := base ++ "_old_" ++ toString c ++ ext
    if lookupFs fs cand = none then cand else fileFreeLoop fs base ext n (c + 1)

/-- Flat-file-branch rename target (`decypherx.py` lines 96-107):
`base_old<ext>` if free, else `base_old_<counter><ext>`. -/
def fileFreeName (fs : List (String × FKind)) (base ext : String) : String :=
  if lookupFs fs (base ++ "_old" ++ ext) = none then base ++ "_old" ++ ext
  else fileFreeLoop fs base ext (fs.length + 1) 1

/-- Archive entries are modelled as the raw result of
`re.split(r"[\\/]", entry)`: the list of components, empties preserved, so
an entry contains a separator exactly when it has at least two
components. -/
def rootDirs (entries : List (List String)) : List String :=
  ((entries.filter (fun e => 1 < e.length)).map (fun e => e.headD "")).dedup

/-- Directory branch of `rename_conflicting_files` (`decypherx.py` lines
68-83): each top-level archive directory name that exists as a directory at
the destination is renamed to its free `_old` variant. -/
def renameDirConflicts :
    List (String × FKind) → List String →
      List (String × FKind) × List (String × String)
  | fs, [] => (fs, [])
  | fs, rd :: rest =>
    if lookupFs fs rd = some FKind.dirK then
      let nn := dirFreeName fs rd
      let r := renameDirConflicts (renameFs fs rd nn) rest
      (r.1, (rd, nn) :: r.2)
    else renameDirConflicts fs rest

/-- Flat branch of `rename_conflicting_files` (`decypherx.py` lines 85-109):
entries without separators (after stripping trailing separators) that exist
as files at the destination are renamed to their free `_old` variant. -/
def renameFileConflicts :
    List (String × FKind) → List (List String) →
      List (String × FKind) × List (String × String)
  | fs, [] => (fs, [])
  | fs, entry :: rest =>
    let clean := (entry.reverse.dropWhile (· = "")).reverse
    if clean.length ≤ 1 then
      let nm := clean.headD ""
      if lookupFs fs nm = some FKind.fileK then
        let se := splitExtName nm
        let nn := fileFreeName fs se.1 se.2
        let r := renameFileConflicts (renameFs fs nm nn) rest
        (r.1, (nm, nn) :: r.2)
      else renameFileConflicts fs rest
    else renameFileConflicts fs rest

/-- Function `rename_conflicting_files` from `decypherx.py` lines 41-109: nothing at
all when `force` is set; otherwise the directory branch when the archive
has any nested entry, else the flat-file branch.  (The destination is
modelled as an existing directory; the archive listing is passed in as the
entries.)  Returns the destination listing afterwards and the renames
performed. -/
def rename_conflicting_files (fs : List (String × FKind))
    (entries : List (List String)) (force : Bool) :
    List (String × FKind) × List (String × String) :=
  if force then (fs, [])
  else if rootDirs entries ≠ [] then renameDirConflicts fs (rootDirs entries)
  else renameFileConflicts fs entries

/-- Observable outcome of the `main` fragment of `decypherx.py` around the
listen flag (lines 155-171). -/
structure DecMainResult where
  fs : List (String × FKind)
  renames : List (String × String)
  listed : List (List String)
  extracted : Bool
deriving DecidableEq, Repr

/-- The `main` fragment of `decypherx.py` lines 155-171:
`rename_conflicting_files` runs unconditionally (line 155) before the
listen check; with `listen` the entries are printed and nothing is
extracted, otherwise the archive is extracted. -/
def decypherx_main (fs : List (String × FKind))
    (entries : List (List String)) (listen force : Bool) : DecMainResult :=
  let r := rename_conflicting_files fs entries force
  if listen then ⟨r.1, r.2, entries, false⟩
  else ⟨r.1, r.2, [], true⟩

/-- Python exception classes relevant to the SSH path: `sys.exit(1)` raises
`SystemExit`, which derives from `BaseException` but not from `Exception`,
so an `except Exception` handler does not catch it. -/
inductive PyExc where
  | systemExit (code : Nat)
  | otherExc
deriving DecidableEq, Repr

/-- Whether `except Exception` catches the raised exception. -/
def caughtByExceptException : PyExc → Bool
  | PyExc.systemExit _ => false
  | PyExc.otherExc => true

/-- Function `create_ssh_client` from `backupxLib/SSHBackupManager.py` lines 15-26:
the paramiko connection attempt (external, abstracted by `env`: whether the
n-th attempt of the surrounding loop would succeed) is wrapped in a
`try`/`except Exception` that logs and calls `sys.exit(1)` itself — so a
failed attempt never surfaces as a catchable `Exception` to the caller. -/
def create_ssh_client (env : Nat → Bool) (attempt : Nat) : Except PyExc Unit :=
  if env attempt then Except.ok () else Except.error (PyExc.systemExit 1)

/-- What `establish_ssh_connection` did: its result, how many connection
attempts were actually made, and how many 2-second sleeps were taken. -/
structure SSHOutcome where
  result : Except PyExc Unit
  attemptsMade : Nat
  sleeps : Nat
deriving Repr

/-- The retry loop of `establish_ssh_connection` (`backupx.py` lines 59-79)
over the remaining attempt numbers of `range(1, 4)`: break on success;
on an exception, retry (after a sleep) only if the handler
`except Exception` actually catches it — `SystemExit` propagates. -/
def establishOver (env : Nat → Bool) :
    List Nat → Nat → Nat → SSHOutcome
  | [], made, s => ⟨Except.error (PyExc.systemExit 1), made, s⟩
  | a :: rest, made, s =>
    match create_ssh_client env a with
    | Except.ok () => ⟨Except.ok (), made + 1, s⟩
    | Except.error e =>
      if caughtByExceptException e then
        if a == 3 then ⟨Except.error (PyExc.systemExit 1), made + 1, s⟩
        else establishOver env rest (made + 1) (s + 1)
      else ⟨Except.error e, made + 1, s⟩

/-- Function `establish_ssh_connection` from `backupx.py` lines 42-79: the loop
`for attempt in range(1, 4)` around `create_ssh_client`. -/
def establish_ssh_connection (env : Nat → Bool) : SSHOutcome :=
  establishOver env [1, 2, 3] 0 0

/-- Model of `str.split(sep)` with an explicit one-character separator
(splitting keeps empty parts, as in Python). -/
def splitOnCharAux (sep : Char) : List Char → List Char → List (List Char)
  | [], cur => [cur.reverse]
  | c :: cs, cur =>
    if c = sep then cur.reverse :: splitOnCharAux sep cs []
    else splitOnCharAux sep cs (c :: cur)

/-- Split a string on a separator character. -/
def splitOnChar (sep : Char) (s : String) : List String :=
  (splitOnCharAux sep s.data []).map (fun l => ⟨l⟩)

/-- True when the string is nonempty and all characters are ASCII digits. -/
def allDigits (s : String) : Bool :=
  !s.data.isEmpty && s.data.all (fun c => c.isDigit)

/-- Numeric value of a digit string. -/
def natOf (s : String) : Nat :=
  s.data.foldl (fun n c => n * 10 + (c.toNat - 48)) 0

/-- Gregorian leap year. -/
def isLeap (y : Nat) : Bool :=
  (y % 4 == 0 && y % 100 != 0) || (y % 400 == 0)

/-- Days in a month. -/
def daysInMonth (y m : Nat) : Nat :=
  if m == 2 then (if isLeap y then 29 else 28)
  else if m == 4 || m == 6 || m == 9 || m == 11 then 30
  else 31

/-- Model of `datetime.strptime(s, "%Y-%m-%d_%H-%M-%S")`
(`delete_old_backups.py` line 28): `none` when the string does not match
the format (`ValueError` in Python), otherwise a rank that orders
timestamps chronologically (strictly monotone in the lexicographic
year/month/day/hour/minute/second order, so rank comparison models
`datetime` comparison). -/
def parseTimestamp (s : String) : Option Nat :=
  match splitOnChar '_' s with
  | [d, t] =>
    match splitOnChar '-' d, splitOnChar '-' t with
    | [ys, ms, ds], [hs, mins, ss] =>
      if allDigits ys && allDigits ms && allDigits ds &&
          allDigits hs && allDigits mins && allDigits ss then
        let y := natOf ys
        let mo := natOf ms
        let da := natOf ds
        let h := natOf hs
        let mi := natOf mins
        let se := natOf ss
        if 1 ≤ y && y ≤ 9999 && 1 ≤ mo && mo ≤ 12 &&
            1 ≤ da && da ≤ daysInMonth y mo &&
            h ≤ 23 && mi ≤ 59 && se ≤ 61 then
          some (((((y * 13 + mo) * 32 + da) * 24 + h) * 60 + mi) * 62 + se)
        else none
      else none
    | _, _ => none
  | _ => none

/-- A directory entry as seen by `os.listdir` plus `os.path.isfile`. -/
structure DirEntry where
  name : String
  isFile : Bool
deriving DecidableEq, Repr

/-- What the sweep did: the names deleted, and whether an exception stopped
the loop early.  The exception is caught by the handler that wraps the
whole loop (`delete_old_backups.py` lines 9 and 34-35), so the function
still returns normally either way and the surrounding pipeline is never
aborted. -/
structure SweepResult where
  deleted : List String
  stoppedEarly : Bool
deriving DecidableEq, Repr

/-- Model of `base.split("_")` of `os.path.splitext(file)[0]`
(`delete_old_backups.py` lines 21-22). -/
def sweepParts (file : String) : List String :=
  splitOnChar '_' (splitExtName file).1

/-- The timestamp parse of one file name: `parts[1] + "_" + parts[2]`
against the fixed format (`delete_old_backups.py` lines 27-28). -/
def sweepParse (file : String) : Option Nat :=
  parseTimestamp ((sweepParts file).getD 1 "" ++ "_" ++ (sweepParts file).getD 2 "")

/-- Whether processing this entry raises `ValueError` inside the loop: it
is a regular file, has at least 3 underscore-separated parts, and its
embedded timestamp does not parse. -/
def sweepFails (e : DirEntry) : Bool :=
  if e.isFile then
    if (sweepParts e.name).length < 3 then false
    else (sweepParse e.name).isNone
  else false

/-- Whether this entry is deleted when reached: a regular file with at
least 3 parts whose parsed timestamp is strictly below the threshold
(`file_datetime < threshold`, line 30). -/
def sweepEligible (threshold : Nat) (e : DirEntry) : Bool :=
  if e.isFile then
    if (sweepParts e.name).length < 3 then false
    else
      match sweepParse e.name with
      | none => false
      | some r => decide (r < threshold)
  else false

/-- Function `delete_backups` from `backupxLib/delete_old_backups.py` lines 7-35.
The `threshold` parameter is the rank of `datetime.now() - timedelta(days=90)`
(lines 14-15, computed by the external datetime library).  The
`try`/`except` wraps the whole `for` loop: a `ValueError` from `strptime`
on one file therefore ends the loop — the remaining entries are not
inspected — but is logged and swallowed, so the function returns
normally. -/
def delete_backups (threshold : Nat) : List DirEntry → SweepResult
  | [] => ⟨[], false⟩
  | e :: rest =>
    if e.isFile then
      if (sweepParts e.name).length < 3 then delete_backups threshold rest
      else
        match sweepParse e.name with
        | none => ⟨[], true⟩
        | some r =>
          if r < threshold then
            let res := delete_backups threshold rest
            ⟨e.name :: res.deleted, res.stoppedEarly⟩
          else delete_backups threshold rest
    else delete_backups threshold rest

/-- Rank of the fixed "now - 90 days" moment 2025-07-14 00:00:00. -/
def sweepThreshold : Nat := ((((2025 * 13 + 7) * 32 + 14) * 24) * 60) * 62

/-- Filesystem events of the backup tool's startup. -/
inductive FsEvent where
  | mkdirEv (path : String)
  | writeEv (path : String)
  | removeEv (path : String)
deriving DecidableEq, Repr

/-- One configuration field as checked by the field-limit loop: its name,
its declared maximum length from `field_limits`, and the textual value
`str(value)` (the empty string when the loaded value is falsy), as in
`backupx.py` lines 349-389 (`decypherx.py` lines 246-268 has the identical
structure). -/
structure CfgField where
  name : String
  maxLen : Nat
  value : String
deriving DecidableEq, Repr

/-- The field-limit loop (`backupx.py` lines 381-389): the first field
whose value length is at or beyond its declared maximum logs a security
error and exits with status 1; otherwise all fields pass. -/
def field_limits_check : List CfgField → Except Nat Unit
  | [] => Except.ok ()
  | f :: rest =>
    if f.maxLen ≤ f.value.length then Except.error 1
    else field_limits_check rest

/-- The startup of `backupx.py`'s `__main__` around the field-limit loop:
`os.makedirs('backups', exist_ok=True)` runs first (line 187 — a mutation
whenever the directory does not yet exist), then the configuration is read
and the field-limit loop runs (lines 349-389); only when every field passes
does the run continue to the destination-directory creation and the rest of
the pipeline, abstracted here as the given `restEvents`. -/
def backupx_startup (backupsDirExists : Bool) (fields : List CfgField)
    (restEvents : List FsEvent) : List FsEvent × Except Nat Unit :=
  let pre : List FsEvent :=
    if backupsDirExists then [] else [FsEvent.mkdirEv "backups"]
  match field_limits_check fields with
  | Except.error c => (pre, Except.error c)
  | Except.ok () => (pre ++ restEvents, Except.ok ())

def sboxTable : List Nat :=
  [99, 124, 119, 123, 242, 107, 111, 197, 48, 1, 103, 43,
   254, 215, 171, 118, 202, 130, 201, 125, 250, 89, 71, 240,
   173, 212, 162, 175, 156, 164, 114, 192, 183, 253, 147, 38,
   54, 63, 247, 204, 52, 165, 229, 241, 113, 216, 49, 21,
   4, 199, 35, 195, 24, 150, 5, 154, 7, 18, 128, 226,
   235, 39, 178, 117, 9, 131, 44, 26, 27, 110, 90, 160,
   82, 59, 214, 179, 41, 227, 47, 132, 83, 209, 0, 237,
   32, 252, 177, 91, 106, 203, 190, 57, 74, 76, 88, 207,
   208, 239, 170, 251, 67, 77, 51, 133, 69, 249, 2, 127,
   80, 60, 159, 168, 81, 163, 64, 143, 146, 157, 56, 245,
   188, 182, 218, 33, 16, 255, 243, 210, 205, 12, 19, 236,
   95, 151, 68, 23, 196, 167, 126, 61, 100, 93, 25, 115,
   96, 129, 79, 220, 34, 42, 144, 136, 70, 238, 184, 20,
   222, 94, 11, 219, 224, 50, 58, 10, 73, 6, 36, 92,
   194, 211, 172, 98, 145, 149, 228, 121, 231, 200, 55, 109,
   141, 213, 78, 169, 108, 86, 244, 234, 101, 122, 174, 8,
   186, 120, 37, 46, 28, 166, 180, 198, 232, 221, 116, 31,
   75, 189, 139, 138, 112, 62, 181, 102, 72, 3, 246, 14,
   97, 53, 87, 185, 134, 193, 29, 158, 225, 248, 152, 17,
   105, 217, 142, 148, 155, 30, 135, 233, 206, 85, 40, 223,
   140, 161, 137, 13, 191, 230, 66, 104, 65, 153, 45, 15,
   176, 84, 187, 22]

def invSboxTable : List Nat :=
  [82, 9, 106, 213, 48, 54, 165, 56, 191, 64, 163, 158,
   129, 243, 215, 251, 124, 227, 57, 130, 155, 47, 255, 135,
   52, 142, 67, 68, 196, 222, 233, 203, 84, 123, 148, 50,
   166, 194, 35, 61, 238, 76, 149, 11, 66, 250, 195, 78,
   8, 46, 161, 102, 40, 217, 36, 178, 118, 91, 162, 73,
   109, 139, 209, 37, 114, 248, 246, 100, 134, 104, 152, 22,
   212, 164, 92, 204, 93, 101, 182, 146, 108, 112, 72, 80,
   253, 237, 185, 218, 94, 21, 70, 87, 167, 141, 157, 132,
   144, 216, 171, 0, 140, 188, 211, 10, 247, 228, 88, 5,
   184, 179, 69, 6, 208, 44, 30, 143, 202, 63, 15, 2,
   193, 175, 189, 3, 1, 19, 138, 107, 58, 145, 17, 65,
   79, 103, 220, 234, 151, 242, 207, 206, 240, 180, 230, 115,
   150, 172, 116, 34, 231, 173, 53, 133, 226, 249, 55, 232,
   28, 117, 223, 110, 71, 241, 26, 113, 29, 41, 197, 137,
   111, 183, 98, 14, 170, 24, 190, 27, 252, 86, 62, 75,
   198, 210, 121, 32, 154, 219, 192, 254, 120, 205, 90, 244,
   31, 221, 168, 51, 136, 7, 199, 49, 177, 18, 16, 89,
   39, 128, 236, 95, 96, 81, 127, 169, 25, 181, 74, 13,
   45, 229, 122, 159, 147, 201, 156, 239, 160, 224, 59, 77,
   174, 42, 245, 176, 200, 235, 187, 60, 131, 83, 153, 97,
   23, 43, 4, 126, 186, 119, 214, 38, 225, 105, 20, 99,
   85, 33, 12, 125]

def shaK : List Nat :=
  [1116352408, 1899447441, 3049323471, 3921009573, 961987163, 1508970993,
   2453635748, 2870763221, 3624381080, 310598401, 607225278, 1426881987,
   1925078388, 2162078206, 2614888103, 3248222580, 3835390401, 4022224774,
   264347078, 604807628, 770255983, 1249150122, 1555081692, 1996064986,
   2554220882, 2821834349, 2952996808, 3210313671, 3336571891, 3584528711,
   113926993, 338241895, 666307205, 773529912, 1294757372, 1396182291,
   1695183700, 1986661051, 2177026350, 2456956037, 2730485921, 2820302411,
   3259730800, 3345764771, 3516065817, 3600352804, 4094571909, 275423344,
   430227734, 506948616, 659060556, 883997877, 958139571, 1322822218,
   1537002063, 1747873779, 1955562222, 2024104815, 2227730452, 2361852424,
   2428436474, 2756734187, 3204031479, 3329325298]

def shaH0 : List Nat :=
  [1779033703, 3144134277, 1013904242, 2773480762, 1359893119, 2600822924,
   528734635, 1541459225]

/-- S-box lookup (AES SubBytes step, FIPS-197 §5.1.1). -/
def sboxB (b : Nat) : Nat := sboxTable.getD b 0

/-- Inverse S-box lookup (FIPS-197 §5.3.2). -/
def invSboxB (b : Nat) : Nat := invSboxTable.getD b 0

/-- Multiplication by x in GF(2^8) modulo x^8+x^4+x^3+x+1 (xtime). -/
def xtime (b : Nat) : Nat := ((2 * b) ^^^ (27 * (b >>> 7))) &&& 255

/-- GF(2^8) multiplication by 2. -/
def gm2 (b : Nat) : Nat := xtime b

/-- GF(2^8) multiplication by 3 = 2 xor 1. -/
def gm3 (b : Nat) : Nat := xtime b ^^^ b

/-- GF(2^8) multiplication by 9 = 8 xor 1. -/
def gm9 (b : Nat) : Nat := xtime (xtime (xtime b)) ^^^ b

/-- GF(2^8) multiplication by 11 = 8 xor 2 xor 1. -/
def gm11 (b : Nat) : Nat := xtime (xtime (xtime b)) ^^^ xtime b ^^^ b

/-- GF(2^8) multiplication by 13 = 8 xor 4 xor 1. -/
def gm13 (b : Nat) : Nat := xtime (xtime (xtime b)) ^^^ xtime (xtime b) ^^^ b

/-- GF(2^8) multiplication by 14 = 8 xor 4 xor 2. -/
def gm14 (b : Nat) : Nat :=
  xtime (xtime (xtime b)) ^^^ xtime (xtime b) ^^^ xtime b

/-- Bytewise xor of two equal-length byte lists. -/
def xorBytes (a b : List Nat) : List Nat := List.zipWith (fun x y => x ^^^ y) a b

/-- SubBytes (FIPS-197 §5.1.1). -/
def subBytes (s : List Nat) : List Nat := s.map sboxB

/-- InvSubBytes. -/
def invSubBytes (s : List Nat) : List Nat := s.map invSboxB

/-- ShiftRows on the 16-byte state in column-major byte order
(byte i is row i % 4, column i / 4): row r rotates left by r. -/
def shiftRows : List Nat → List Nat
  | [s0, s1, s2, s3, s4, s5, s6, s7, s8, s9, s10, s11, s12, s13, s14, s15] =>
    [s0, s5, s10, s15, s4, s9, s14, s3, s8, s13, s2, s7, s12, s1, s6, s11]
  | s => s

/-- InvShiftRows: row r rotates right by r. -/
def invShiftRows : List Nat → List Nat
  | [s0, s1, s2, s3, s4, s5, s6, s7, s8, s9, s10, s11, s12, s13, s14, s15] =>
    [s0, s13, s10, s7, s4, s1, s14, s11, s8, s5, s2, s15, s12, s9, s6, s3]
  | s => s

/-- One MixColumns column (FIPS-197 §5.1.3). -/
def mixCol (a0 a1 a2 a3 : Nat) : List Nat :=
  [gm2 a0 ^^^ gm3 a1 ^^^ a2 ^^^ a3,
   a0 ^^^ gm2 a1 ^^^ gm3 a2 ^^^ a3,
   a0 ^^^ a1 ^^^ gm2 a2 ^^^ gm3 a3,
   gm3 a0 ^^^ a1 ^^^ a2 ^^^ gm2 a3]

/-- One InvMixColumns column (FIPS-197 §5.3.3). -/
def invMixCol (a0 a1 a2 a3 : Nat) : List Nat :=
  [gm14 a0 ^^^ gm11 a1 ^^^ gm13 a2 ^^^ gm9 a3,
   gm9 a0 ^^^ gm14 a1 ^^^ gm11 a2 ^^^ gm13 a3,
   gm13 a0 ^^^ gm9 a1 ^^^ gm14 a2 ^^^ gm11 a3,
   gm11 a0 ^^^ gm13 a1 ^^^ gm9 a2 ^^^ gm14 a3]

/-- MixColumns over the four columns of the state. -/
def mixColumns : List Nat → List Nat
  | [a0, a1, a2, a3, b0, b1, b2, b3, c0, c1, c2, c3, d0, d1, d2, d3] =>
    mixCol a0 a1 a2 a3 ++ mixCol b0 b1 b2 b3 ++
      mixCol c0 c1 c2 c3 ++ mixCol d0 d1 d2 d3
  | s => s

/-- InvMixColumns. -/
def invMixColumns : List Nat → List Nat
  | [a0, a1, a2, a3, b0, b1, b2, b3, c0, c1, c2, c3, d0, d1, d2, d3] =>
    invMixCol a0 a1 a2 a3 ++ invMixCol b0 b1 b2 b3 ++
      invMixCol c0 c1 c2 c3 ++ invMixCol d0 d1 d2 d3
  | s => s

/-- AddRoundKey. -/
def addRoundKey (s k : List Nat) : List Nat := xorBytes s k

/-- Rotate a 4-byte word left by one byte (key schedule RotWord). -/
def rotWord : List Nat → List Nat
  | [a, b, c, d] => [b, c, d, a]
  | w => w

/-- SubWord: S-box each byte of a word. -/
def subWord (w : List Nat) : List Nat := w.map sboxB

/-- Iterated multiplication by 2, for the round constants. -/
def gm2Iter : Nat → Nat → Nat
  | 0, b => b
  | n + 1, b => gm2Iter n (gm2 b)

/-- Round-constant byte rcon(j) = x^(j-1) in GF(2^8). -/
def rconByte (j : Nat) : Nat := gm2Iter (j - 1) 1

/-- Split a byte list into 4-byte words. -/
def chunks4 : List Nat → List (List Nat)
  | a :: b :: c :: d :: rest => [a, b, c, d] :: chunks4 rest
  | _ => []

/-- The next word of the AES-256 key schedule (FIPS-197 §5.2, Nk = 8),
given the words produced so far. -/
def nextWord (ws : List (List Nat)) : List Nat :=
  let i := ws.length
  let prev := ws.getD (i - 1) []
  let t :=
    if i % 8 == 0 then
      xorBytes (subWord (rotWord prev)) [rconByte (i / 8), 0, 0, 0]
    else if i % 8 == 4 then subWord prev
    else prev
  xorBytes (ws.getD (i - 8) []) t

/-- Extend the key-schedule word list by n further words. -/
def ksAux (ws : List (List Nat)) : Nat → List (List Nat)
  | 0 => ws
  | n + 1 => ksAux (ws ++ [nextWord ws]) n

/-- Group words four at a time into 16-byte round keys. -/
def groups4 : List (List Nat) → List (List Nat)
  | w0 :: w1 :: w2 :: w3 :: rest => (w0 ++ w1 ++ w2 ++ w3) :: groups4 rest
  | _ => []

/-- AES-256 key expansion: 8 initial words from the 32-byte key, 52
generated words, grouped into 15 round keys. -/
def keyExpansion (key : List Nat) : List (List Nat) :=
  groups4 (ksAux (chunks4 key) 52)

/-- The encryption rounds after the initial AddRoundKey, driven by the
remaining round keys: every key but the last is a full round
(SubBytes, ShiftRows, MixColumns, AddRoundKey); the last key is the final
round without MixColumns (FIPS-197 §5.1). -/
def aesEncRounds : List (List Nat) → List Nat → List Nat
  | [], s => s
  | [k], s => addRoundKey (shiftRows (subBytes s)) k
  | k :: ks, s => aesEncRounds ks (addRoundKey (mixColumns (shiftRows (subBytes s))) k)

/-- AES block encryption: initial AddRoundKey, then the rounds. -/
def aesEncBlock (rks : List (List Nat)) (blk : List Nat) : List Nat :=
  match rks with
  | [] => blk
  | k0 :: ks => aesEncRounds ks (addRoundKey blk k0)

/-- The inverse of `aesEncRounds` on the same key list. -/
def aesDecRounds : List (List Nat) → List Nat → List Nat
  | [], t => t
  | [k], t => invSubBytes (invShiftRows (addRoundKey t k))
  | k :: ks, t =>
    invSubBytes (invShiftRows (invMixColumns (addRoundKey (aesDecRounds ks t) k)))

/-- AES block decryption. -/
def aesDecBlock (rks : List (List Nat)) (blk : List Nat) : List Nat :=
  match rks with
  | [] => blk
  | k0 :: ks => addRoundKey (aesDecRounds ks blk) k0

/-- Mask to 32 bits. -/
def m32 (x : Nat) : Nat := x &&& 4294967295

/-- Rotate a 32-bit word right. -/
def rotr32 (x n : Nat) : Nat := m32 ((x >>> n) ||| (x <<< (32 - n)))

/-- SHA-256 big sigma 0. -/
def bSig0 (x : Nat) : Nat := rotr32 x 2 ^^^ rotr32 x 13 ^^^ rotr32 x 22

/-- SHA-256 big sigma 1. -/
def bSig1 (x : Nat) : Nat := rotr32 x 6 ^^^ rotr32 x 11 ^^^ rotr32 x 25

/-- SHA-256 small sigma 0. -/
def sSig0 (x : Nat) : Nat := rotr32 x 7 ^^^ rotr32 x 18 ^^^ (x >>> 3)

/-- SHA-256 small sigma 1. -/
def sSig1 (x : Nat) : Nat := rotr32 x 17 ^^^ rotr32 x 19 ^^^ (x >>> 10)

/-- Big-endian 4-byte words from bytes. -/
def bytesToWords : List Nat → List Nat
  | b0 :: b1 :: b2 :: b3 :: rest =>
    ((((b0 <<< 8) ||| b1) <<< 8 ||| b2) <<< 8 ||| b3) :: bytesToWords rest
  | _ => []

/-- Big-endian bytes of one 32-bit word. -/
def wordToBytesBE (w : Nat) : List Nat :=
  [(w >>> 24) &&& 255, (w >>> 16) &&& 255, (w >>> 8) &&& 255, w &&& 255]

/-- Append one word of the SHA-256 message schedule. -/
def shaExtendStep (ws : List Nat) : List Nat :=
  let n := ws.length
  ws ++ [m32 (sSig1 (ws.getD (n - 2) 0) + ws.getD (n - 7) 0 +
    sSig0 (ws.getD (n - 15) 0) + ws.getD (n - 16) 0)]

/-- Extend the schedule by n words. -/
def shaSchedule (ws : List Nat) : Nat → List Nat
  | 0 => ws
  | n + 1 => shaSchedule (shaExtendStep ws) n

/-- One SHA-256 compression round on the 8-word state. -/
def shaCompressStep (st : List Nat) (kw : Nat × Nat) : List Nat :=
  match st with
  | [a, b, c, d, e, f, g, h] =>
    let ch := (e &&& f) ^^^ ((e ^^^ 4294967295) &&& g)
    let maj := (a &&& b) ^^^ (a &&& c) ^^^ (b &&& c)
    let t1 := m32 (h + bSig1 e + ch + kw.1 + kw.2)
    let t2 := m32 (bSig0 a + maj)
    [m32 (t1 + t2), a, b, c, m32 (d + t1), e, f, g]
  | s => s

/-- Compress one 64-byte block into the running hash state. -/
def shaCompressBlock (h : List Nat) (block : List Nat) : List Nat :=
  let ws := shaSchedule (bytesToWords block) 48
  let st := (shaK.zip ws).foldl shaCompressStep h
  List.zipWith (fun x y => m32 (x + y)) h st

/-- Big-endian 8-byte encoding of the 64-bit message bit length. -/
def len64be (n : Nat) : List Nat :=
  [(n >>> 56) &&& 255, (n >>> 48) &&& 255, (n >>> 40) &&& 255,
   (n >>> 32) &&& 255, (n >>> 24) &&& 255, (n >>> 16) &&& 255,
   (n >>> 8) &&& 255, n &&& 255]

/-- SHA-256 message padding: 0x80, zeros to 56 mod 64, 64-bit length. -/
def shaPad (msg : List Nat) : List Nat :=
  let z := (56 + 64 - ((msg.length + 1) % 64)) % 64
  msg ++ 128 :: List.replicate z 0 ++ len64be (8 * msg.length)

/-- Split into 64-byte blocks (structural accumulator recursion, so that
concrete digests evaluate inside the kernel). -/
def chunks64Aux : List Nat → List Nat → List (List Nat)
  | [], cur => if cur.isEmpty then [] else [cur.reverse]
  | x :: xs, cur =>
    if cur.length + 1 == 64 then (x :: cur).reverse :: chunks64Aux xs []
    else chunks64Aux xs (x :: cur)

/-- Split into 64-byte blocks. -/
def chunks64 (l : List Nat) : List (List Nat) := chunks64Aux l []

/-- SHA-256 of a byte string, as 32 bytes (the single-pass digest used by
`derive_key` in `aes_encrypt_inplace.py` / `aes_decrypt_inplace.py`
lines 10-12: the hashlib library's SHA-256 of the UTF-8 password). -/
def sha256Bytes (msg : List Nat) : List Nat :=
  (((chunks64 (shaPad msg)).foldl shaCompressBlock shaH0).map wordToBytesBE).flatten

/-- Split into 16-byte cipher blocks (structural, kernel-evaluable; called
only on lists whose length is a multiple of 16). -/
def chunks16 : List Nat → List (List Nat)
  | b0 :: b1 :: b2 :: b3 :: b4 :: b5 :: b6 :: b7 ::
      b8 :: b9 :: b10 :: b11 :: b12 :: b13 :: b14 :: b15 :: rest =>
    [b0, b1, b2, b3, b4, b5, b6, b7, b8, b9, b10, b11, b12, b13, b14, b15] ::
      chunks16 rest
  | _ => []

/-- CBC encryption over blocks: each plaintext block is xored with the
previous ciphertext block (initially the IV) before the block cipher. -/
def cbcEncBlocks (rks : List (List Nat)) :
    List Nat → List (List Nat) → List (List Nat)
  | _, [] => []
  | prev, b :: bs =>
    let c := aesEncBlock rks (xorBytes b prev)
    c :: cbcEncBlocks rks c bs

/-- CBC decryption over blocks. -/
def cbcDecBlocks (rks : List (List Nat)) :
    List Nat → List (List Nat) → List (List Nat)
  | _, [] => []
  | prev, c :: cs =>
    xorBytes (aesDecBlock rks c) prev :: cbcDecBlocks rks c cs

/-- AES-256-CBC encryption of a byte string (length a multiple of 16). -/
def cbcEncrypt (key iv data : List Nat) : List Nat :=
  (cbcEncBlocks (keyExpansion key) iv (chunks16 data)).flatten

/-- AES-256-CBC decryption of a byte string. -/
def cbcDecrypt (key iv data : List Nat) : List Nat :=
  (cbcDecBlocks (keyExpansion key) iv (chunks16 data)).flatten

/-- PKCS#7 padding to the 16-byte block size
(`Crypto.Util.Padding.pad(plaintext, AES.block_size)`,
`aes_encrypt_inplace.py` line 28). -/
def pkcsPad (data : List Nat) : List Nat :=
  let n := 16 - data.length % 16
  data ++ List.replicate n n

/-- PKCS#7 unpadding (`Crypto.Util.Padding.unpad`, raising = `none`):
fails on the empty string, on a length not a multiple of the block size,
on a final byte outside 1..16, and on padding bytes that do not all equal
the final byte (`aes_decrypt_inplace.py` line 35). -/
def pkcsUnpad (data : List Nat) : Option (List Nat) :=
  if data.length == 0 || data.length % 16 != 0 then none
  else
    let n := data.getLastD 0
    if n < 1 || 16 < n then none
    else if data.drop (data.length - n) = List.replicate n n then
      some (data.take (data.length - n))
    else none

/-- Function `derive_key` from `aes_encrypt_inplace.py` / `aes_decrypt_inplace.py`
lines 10-12: the single SHA-256 digest of the UTF-8 password bytes. -/
def derive_key (password : List Nat) : List Nat := sha256Bytes password

/-- The file written by encryption: its path and its bytes. -/
structure EncResult where
  path : String
  content : List Nat
deriving DecidableEq, Repr

/-- Function `encrypt_file` from `backupxLib/aes_encrypt_inplace.py` lines 14-38:
derive the key, pad the plaintext, CBC-encrypt it under the fresh 16-byte
IV (`os.urandom(16)`, passed in as `iv` since it is external randomness),
and write `iv ++ ciphertext` to the new file `file_path + ".aes"`.  The
plaintext file is only read, never written. -/
def encrypt_file (file_path : String) (content password iv : List Nat) :
    EncResult :=
  ⟨file_path ++ ".aes",
   iv ++ cbcEncrypt (derive_key password) iv (pkcsPad content)⟩

/-- Model of `file_path[:-4] if file_path.endswith('.aes') else file_path`
(`aes_decrypt_inplace.py` line 38). -/
def stripAes (s : String) : String :=
  if List.isSuffixOf ".aes".data s.data then
    ⟨s.data.take (s.data.length - 4)⟩
  else s

/-- Function `decrypt_file` from `backupxLib/aes_decrypt_inplace.py` lines 14-49:
exit status 1 when the file is shorter than 16 bytes; split IV and
ciphertext; a ciphertext length not a multiple of the block size raises
`ValueError` inside `cipher.decrypt` and a bad padding raises inside
`unpad`, both caught by the same handler that exits with status 1;
otherwise the plaintext is written to the original name (suffix
stripped). -/
def decrypt_file (file_path : String) (data password : List Nat) :
    Except Nat (String × List Nat) :=
  if data.length < 16 then Except.error 1
  else if (data.drop 16).length % 16 != 0 then Except.error 1
  else
    match pkcsUnpad (cbcDecrypt (derive_key password) (data.take 16)
        (data.drop 16)) with
    | none => Except.error 1
    | some pt => Except.ok (stripAes file_path, pt)

/-- The 15 plaintext bytes of "top secret data". -/
def ptSample : List Nat :=
  [116, 111, 112, 32, 115, 101, 99, 114, 101, 116, 32, 100, 97, 116, 97]

/-- UTF-8 bytes of the password "correct horse". -/
def pwGood : List Nat :=
  [99, 111, 114, 114, 101, 99, 116, 32, 104, 111, 114, 115, 101]

/-- UTF-8 bytes of the wrong password "pw845". -/
def pwBad : List Nat := [112, 119, 56, 52, 53]

/-- A fixed IV 00 01 .. 0f. -/
def ivSample : List Nat := List.range 16

instance exceptDecEq {ε α : Type} [DecidableEq ε] [DecidableEq α] :
    DecidableEq (Except ε α)
  | Except.error e, Except.error f =>
    if h : e = f then Decidable.isTrue (by rw [h])
    else Decidable.isFalse (fun c => h (by injection c))
  | Except.error _, Except.ok _ =>
    Decidable.isFalse (fun c => Except.noConfusion c)
  | Except.ok _, Except.error _ =>
    Decidable.isFalse (fun c => Except.noConfusion c)
  | Except.ok x, Except.ok y =>
    if h : x = y then Decidable.isTrue (by rw [h])
    else Decidable.isFalse (fun c => h (by injection c))

/-- All entries are bytes. -/
def BytesLt (l : List Nat) : Prop := ∀ b ∈ l, b < 256

/-- Round keys are 16 bytes each. -/
def RKOk (ks : List (List Nat)) : Prop :=
  ∀ k ∈ ks, k.length = 16 ∧ BytesLt k

/-- Key-schedule words are 4 bytes each. -/
def WordsOk (ws : List (List Nat)) : Prop :=
  ∀ w ∈ ws, w.length = 4 ∧ BytesLt w

theorem writesOf_append (a b : List ZEvent) :
    writesOf (a ++ b) = writesOf a ++ writesOf b := by
  induction a with
  | nil => rfl
  | cons e rest ih => cases e <;> simp [writesOf, ih]

theorem writesOf_zipEntryEvents (dest : PurePath) (e : PurePath × List Nat) :
    writesOf (zipEntryEvents dest e) = [(joinP dest e.1, e.2)] := rfl

/-- Characterisation of the ZIP extractor: either every member passes the
containment check and every member is written, or the archive splits as
`pre ++ bad :: post` with `pre` the checked-and-written prefix and `bad` the
first violating member, at which the run aborts. -/
theorem extract_zip_aes_spec (cwd dest : PurePath)
    (archive : List (PurePath × List Nat)) :
    ((∀ e ∈ archive, is_within_directory cwd dest (joinP dest e.1) = true) ∧
      extract_zip_aes cwd dest archive =
        ((archive.map (zipEntryEvents dest)).flatten, Except.ok ())) ∨
    (∃ pre bad post,
      archive = pre ++ bad :: post ∧
      (∀ e ∈ pre, is_within_directory cwd dest (joinP dest e.1) = true) ∧
      is_within_directory cwd dest (joinP dest bad.1) = false ∧
      extract_zip_aes cwd dest archive =
        ((pre.map (zipEntryEvents dest)).flatten ++ [ZEvent.check bad.1],
         Except.error 1)) := by
  induction archive with
  | nil => left; simp [extract_zip_aes]
  | cons e rest ih =>
    by_cases h : is_within_directory cwd dest (joinP dest e.1) = true
    · rcases ih with ⟨hall, heq⟩ | ⟨pre, bad, post, hsplit, hpre, hbad, heq⟩
      · left
        refine ⟨?_, ?_⟩
        · intro x hx
          rcases List.mem_cons.mp hx with hx | hx
          · exact hx ▸ h
          · exact hall x hx
        · simp [extract_zip_aes, h, heq]
      · right
        refine ⟨e :: pre, bad, post, by simp [hsplit], ?_, hbad, ?_⟩
        · intro x hx
          rcases List.mem_cons.mp hx with hx | hx
          · exact hx ▸ h
          · exact hpre x hx
        · simp [extract_zip_aes, h, heq]
    · right
      refine ⟨[], e, rest, by simp, by simp, by simpa using h, ?_⟩
      simp [extract_zip_aes, h]

/-- Characterisation of the 7z check loop: either every member passes and
the trace is one check per member, or the name list splits at the first
violating member. -/
theorem sevenZChecks_spec (cwd dest : PurePath)
    (archive : List (PurePath × List Nat)) :
    ((∀ e ∈ archive, is_within_directory cwd dest (joinP dest e.1) = true) ∧
      sevenZChecks cwd dest archive =
        (archive.map (fun e => ZEvent.check e.1), true)) ∨
    (∃ pre bad post,
      archive = pre ++ bad :: post ∧
      (∀ e ∈ pre, is_within_directory cwd dest (joinP dest e.1) = true) ∧
      is_within_directory cwd dest (joinP dest bad.1) = false ∧
      sevenZChecks cwd dest archive =
        (pre.map (fun e => ZEvent.check e.1) ++ [ZEvent.check bad.1], false)) := by
  induction archive with
  | nil => left; simp [sevenZChecks]
  | cons e rest ih =>
    by_cases h : is_within_directory cwd dest (joinP dest e.1) = true
    · rcases ih with ⟨hall, heq⟩ | ⟨pre, bad, post, hsplit, hpre, hbad, heq⟩
      · left
        refine ⟨?_, ?_⟩
        · intro x hx
          rcases List.mem_cons.mp hx with hx | hx
          · exact hx ▸ h
          · exact hall x hx
        · simp [sevenZChecks, h, heq]
      · right
        refine ⟨e :: pre, bad, post, by simp [hsplit], ?_, hbad, ?_⟩
        · intro x hx
          rcases List.mem_cons.mp hx with hx | hx
          · exact hx ▸ h
          · exact hpre x hx
        · simp [sevenZChecks, h, heq]
    · right
      refine ⟨[], e, rest, by simp, by simp, by simpa using h, ?_⟩
      simp [sevenZChecks, h]

theorem writesOf_checks (l : List (PurePath × List Nat)) :
    writesOf (l.map (fun e => ZEvent.check e.1)) = [] := by
  induction l with
  | nil => rfl
  | cons e rest ih => simp [writesOf, ih]

theorem writesOf_flatten_entries (dest : PurePath)
    (l : List (PurePath × List Nat)) :
    writesOf ((l.map (zipEntryEvents dest)).flatten) =
      l.map (fun e => (joinP dest e.1, e.2)) := by
  induction l with
  | nil => rfl
  | cons e rest ih =>
    simp only [List.map_cons, List.flatten_cons, writesOf_append, ih,
      writesOf_zipEntryEvents, List.singleton_append]

/-- C1: for every ZIP archive and destination, each member is validated
immediately before it is written (the per-member trace is check, mkdir,
write, in that order, by definition of `zipEntryEvents`); if the join of
destination and member does not resolve inside the destination the run
aborts with exit status 1, nothing is written for the violating member, and
the files written for earlier members remain (no rollback). -/
theorem zip_member_validated_before_write (cwd dest : PurePath)
    (archive : List (PurePath × List Nat)) :
    ((∀ e ∈ archive, is_within_directory cwd dest (joinP dest e.1) = true) ∧
      extract_zip_aes cwd dest archive =
        ((archive.map (zipEntryEvents dest)).flatten, Except.ok ())) ∨
    (∃ pre bad post,
      archive = pre ++ bad :: post ∧
      (∀ e ∈ pre, is_within_directory cwd dest (joinP dest e.1) = true) ∧
      is_within_directory cwd dest (joinP dest bad.1) = false ∧
      (extract_zip_aes cwd dest archive).2 = Except.error 1 ∧
      writesOf (extract_zip_aes cwd dest archive).1 =
        pre.map (fun e => (joinP dest e.1, e.2)) ∧
      ∀ c, (joinP dest bad.1, c) ∉ writesOf (extract_zip_aes cwd dest archive).1) := by
  rcases extract_zip_aes_spec cwd dest archive with h | ⟨pre, bad, post, hsplit, hpre, hbad, heq⟩
  · exact Or.inl h
  · right
    refine ⟨pre, bad, post, hsplit, hpre, hbad, by simp [heq], ?_, ?_⟩
    · simp [heq, writesOf_append, writesOf_flatten_entries, writesOf]
    · intro c hc
      simp only [heq, writesOf_append, writesOf_flatten_entries] at hc
      simp only [writesOf, List.append_nil] at hc
      rcases List.mem_map.mp hc with ⟨x, hx, hxeq⟩
      have hxw : is_within_directory cwd dest (joinP dest x.1) = true := hpre x hx
      have : joinP dest x.1 = joinP dest bad.1 := congrArg Prod.fst hxeq
      rw [this, hbad] at hxw
      exact Bool.false_ne_true hxw

/-- C2: for every 7z archive and destination, the containment check runs for
every member before any member is written: on success the trace is all the
checks followed by all the writes; if any member fails, the run aborts with
exit status 1 and no member at all is written (all-or-nothing). -/
theorem sevenz_all_checks_before_any_write (cwd dest : PurePath)
    (archive : List (PurePath × List Nat)) :
    ((∀ e ∈ archive, is_within_directory cwd dest (joinP dest e.1) = true) ∧
      extract_7z cwd dest archive =
        (archive.map (fun e => ZEvent.check e.1) ++
          archive.map (fun e => ZEvent.write (joinP dest e.1) e.2),
         Except.ok ())) ∨
    (∃ bad ∈ archive, is_within_directory cwd dest (joinP dest bad.1) = false ∧
      (extract_7z cwd dest archive).2 = Except.error 1 ∧
      writesOf (extract_7z cwd dest archive).1 = []) := by
  rcases sevenZChecks_spec cwd dest archive with ⟨hall, heq⟩ | ⟨pre, bad, post, hsplit, hpre, hbad, heq⟩
  · left
    exact ⟨hall, by simp [extract_7z, heq]⟩
  · right
    refine ⟨bad, by simp [hsplit], hbad, ?_, ?_⟩
    · simp [extract_7z, heq]
    · simp [extract_7z, heq, writesOf_append, writesOf_checks, writesOf]

theorem cleanNameB_spec {n : String} (h : cleanNameB n = true) :
    ¬(n = "" ∨ n = ".") ∧ n ≠ ".." := by
  simp only [cleanNameB, Bool.and_eq_true, bne_iff_ne] at h
  exact ⟨by rintro (h1 | h1) <;> simp [h1] at h, h.2⟩

theorem normComps_append_clean (d p : List String)
    (h : ∀ c ∈ p, cleanNameB c = true) :
    normComps (d ++ p) = normComps d ++ p := by
  unfold normComps
  rw [List.foldl_append]
  generalize (List.foldl _ [] d : List String) = acc
  induction p generalizing acc with
  | nil => simp
  | cons c cs ih =>
    have hc := cleanNameB_spec (h c (List.mem_cons_self c cs))
    simp only [List.foldl_cons, if_neg hc.1, if_neg hc.2]
    rw [ih (fun x hx => h x (List.mem_cons_of_mem c hx))]
    simp

theorem isPrefixOf_append_self (a b : List String) :
    a.isPrefixOf (a ++ b) = true := by
  induction a with
  | nil => simp [List.isPrefixOf]
  | cons x xs ih => simp [List.isPrefixOf, ih]

mutual
theorem treeFilesRel_clean (t : FTree) (h : wfTree t = true) :
    ∀ pc ∈ treeFilesRel t, ∀ c ∈ pc.1, cleanNameB c = true := by
  match t with
  | .file n c =>
    intro pc hpc x hx
    simp only [treeFilesRel, List.mem_singleton] at hpc
    subst hpc
    simp only [List.mem_singleton] at hx
    subst hx
    exact h
  | .dir n ch =>
    intro pc hpc x hx
    simp only [wfTree, Bool.and_eq_true] at h
    simp only [treeFilesRel, List.mem_map] at hpc
    rcases hpc with ⟨qc, hqc, rfl⟩
    rcases List.mem_cons.mp hx with rfl | hx
    · exact h.1
    · exact forestFilesRel_clean ch h.2 qc hqc x hx

theorem forestFilesRel_clean (f : Forest) (h : wfForest f = true) :
    ∀ pc ∈ forestFilesRel f, ∀ c ∈ pc.1, cleanNameB c = true := by
  match f with
  | .nil => intro pc hpc; simp [forestFilesRel] at hpc
  | .cons t ts =>
    intro pc hpc x hx
    simp only [wfForest, Bool.and_eq_true] at h
    rcases List.mem_append.mp hpc with hpc | hpc
    · exact treeFilesRel_clean t h.1 pc hpc x hx
    · exact forestFilesRel_clean ts h.2 pc hpc x hx
end

theorem create_zip_aes_within (cwd dest : PurePath) (t : FTree)
    (hwf : wfTree t = true) (hdest : dest.absolute = true)
    (hnorm : normComps dest.comps = dest.comps) :
    ∀ e ∈ create_zip_aes t,
      is_within_directory cwd dest (joinP dest e.1) = true := by
  intro e he
  simp only [create_zip_aes, List.mem_map] at he
  rcases he with ⟨pc, hpc, rfl⟩
  have hclean := treeFilesRel_clean t hwf pc hpc
  simp only [is_within_directory, abspathP, joinP, hdest, if_true,
    Bool.false_eq_true, if_false, ite_true, ite_false, List.nil_append]
  rw [normComps_append_clean dest.comps pc.1 hclean, hnorm]
  exact isPrefixOf_append_self _ _

/-- C4: extracting the archive built from a directory tree reproduces the
tree: the build names every regular file by its path relative to the
source's parent directory (top-level directory name preserved), every
member passes the containment check, extraction succeeds, and the files
written are exactly the tree's files — byte-identical contents, each at the
destination joined with its original relative path. -/
theorem zip_build_extract_roundtrip (cwd dest : PurePath) (t : FTree)
    (hwf : wfTree t = true) (hdest : dest.absolute = true)
    (hnorm : normComps dest.comps = dest.comps) :
    (extract_zip_aes cwd dest (create_zip_aes t)).2 = Except.ok () ∧
    writesOf (extract_zip_aes cwd dest (create_zip_aes t)).1 =
      (treeFilesRel t).map
        (fun pc => ((⟨true, dest.comps ++ pc.1⟩ : PurePath), pc.2)) := by
  have hall := create_zip_aes_within cwd dest t hwf hdest hnorm
  rcases extract_zip_aes_spec cwd dest (create_zip_aes t) with
    ⟨_, heq⟩ | ⟨pre, bad, post, hsplit, _, hbad, _⟩
  · refine ⟨by simp [heq], ?_⟩
    have h1 : (extract_zip_aes cwd dest (create_zip_aes t)).1 =
        ((create_zip_aes t).map (zipEntryEvents dest)).flatten := by rw [heq]
    rw [h1, writesOf_flatten_entries]
    simp only [create_zip_aes, List.map_map]
    refine List.map_congr_left ?_
    intro pc _
    simp only [Function.comp_apply, joinP]
    simp [hdest]
  · exfalso
    have : bad ∈ create_zip_aes t := by simp [hsplit]
    rw [hall bad this] at hbad
    exact Bool.noConfusion hbad

/-- Concrete instance of the round-trip theorem: a two-level tree `data/`
containing `a.txt` and `sub/b.txt` archives and extracts back to the same
layout under the destination. -/
theorem zip_build_extract_roundtrip_witness :
    (extract_zip_aes ⟨true, []⟩ ⟨true, ["restore"]⟩
      (create_zip_aes sampleTree)).2 = Except.ok () ∧
    writesOf (extract_zip_aes ⟨true, []⟩ ⟨true, ["restore"]⟩
        (create_zip_aes sampleTree)).1 =
      (treeFilesRel sampleTree).map
        (fun pc => ((⟨true, ["restore"] ++ pc.1⟩ : PurePath), pc.2)) :=
  zip_build_extract_roundtrip ⟨true, []⟩ ⟨true, ["restore"]⟩ sampleTree
    (by decide) rfl rfl

/-- Concrete instance of the ZIP theorem at an archive with a traversal
member. -/
theorem zip_member_validated_before_write_witness :
    ((∀ e ∈ slipArchive,
        is_within_directory ⟨true, []⟩ ⟨true, ["dst"]⟩
          (joinP ⟨true, ["dst"]⟩ e.1) = true) ∧
      extract_zip_aes ⟨true, []⟩ ⟨true, ["dst"]⟩ slipArchive =
        ((slipArchive.map (zipEntryEvents ⟨true, ["dst"]⟩)).flatten,
         Except.ok ())) ∨
    (∃ pre bad post,
      slipArchive = pre ++ bad :: post ∧
      (∀ e ∈ pre,
        is_within_directory ⟨true, []⟩ ⟨true, ["dst"]⟩
          (joinP ⟨true, ["dst"]⟩ e.1) = true) ∧
      is_within_directory ⟨true, []⟩ ⟨true, ["dst"]⟩
        (joinP ⟨true, ["dst"]⟩ bad.1) = false ∧
      (extract_zip_aes ⟨true, []⟩ ⟨true, ["dst"]⟩ slipArchive).2 =
        Except.error 1 ∧
      writesOf (extract_zip_aes ⟨true, []⟩ ⟨true, ["dst"]⟩ slipArchive).1 =
        pre.map (fun e => (joinP ⟨true, ["dst"]⟩ e.1, e.2)) ∧
      ∀ c, (joinP ⟨true, ["dst"]⟩ bad.1, c) ∉
        writesOf (extract_zip_aes ⟨true, []⟩ ⟨true, ["dst"]⟩ slipArchive).1) :=
  zip_member_validated_before_write ⟨true, []⟩ ⟨true, ["dst"]⟩ slipArchive

/-- Concrete instance of the 7z theorem at an archive with a traversal
member. -/
theorem sevenz_all_checks_before_any_write_witness :
    ((∀ e ∈ slipArchive,
        is_within_directory ⟨true, []⟩ ⟨true, ["dst"]⟩
          (joinP ⟨true, ["dst"]⟩ e.1) = true) ∧
      extract_7z ⟨true, []⟩ ⟨true, ["dst"]⟩ slipArchive =
        (slipArchive.map (fun e => ZEvent.check e.1) ++
          slipArchive.map
            (fun e => ZEvent.write (joinP ⟨true, ["dst"]⟩ e.1) e.2),
         Except.ok ())) ∨
    (∃ bad ∈ slipArchive,
      is_within_directory ⟨true, []⟩ ⟨true, ["dst"]⟩
        (joinP ⟨true, ["dst"]⟩ bad.1) = false ∧
      (extract_7z ⟨true, []⟩ ⟨true, ["dst"]⟩ slipArchive).2 =
        Except.error 1 ∧
      writesOf (extract_7z ⟨true, []⟩ ⟨true, ["dst"]⟩ slipArchive).1 = []) :=
  sevenz_all_checks_before_any_write ⟨true, []⟩ ⟨true, ["dst"]⟩ slipArchive

/-- C9: with `force` no rename at all is performed; without `force`, when
the archive's top-level directory set is `{b}` and the destination already
holds directory `b`, the existing `b` is renamed to `b_old` when that name
is free, and to `b_old_1` on a second collision (when `b_old` is already
taken). -/
theorem conflict_rename_old_then_old_1 :
    (∀ (fs : List (String × FKind)) (entries : List (List String)),
      rename_conflicting_files fs entries true = (fs, [])) ∧
    (∀ (fs : List (String × FKind)) (entries : List (List String)) (b : String),
      rootDirs entries = [b] →
      lookupFs fs b = some FKind.dirK →
      lookupFs fs (b ++ "_old") = none →
      rename_conflicting_files fs entries false =
        (renameFs fs b (b ++ "_old"), [(b, b ++ "_old")])) ∧
    (∀ (fs : List (String × FKind)) (entries : List (List String)) (b : String)
      (k : FKind),
      rootDirs entries = [b] →
      lookupFs fs b = some FKind.dirK →
      lookupFs fs (b ++ "_old") = some k →
      lookupFs fs (b ++ "_old_" ++ toString 1) = none →
      rename_conflicting_files fs entries false =
        (renameFs fs b (b ++ "_old_" ++ toString 1),
         [(b, b ++ "_old_" ++ toString 1)])) := by
  refine ⟨?_, ?_, ?_⟩
  · intro fs entries
    simp [rename_conflicting_files]
  · intro fs entries b hroot hdir hfree
    simp [rename_conflicting_files, renameDirConflicts, dirFreeName,
      hroot, hdir, hfree]
  · intro fs entries b k hroot hdir htaken hfree
    simp [rename_conflicting_files, renameDirConflicts, dirFreeName,
      dirFreeLoop, hroot, hdir, htaken, hfree]

/-- Concrete instance of the conflict-rename theorem: first collision gives
`data_old`, second collision gives `data_old_1`. -/
theorem conflict_rename_old_then_old_1_witness :
    rename_conflicting_files [("data", FKind.dirK)] [["data", "x.txt"]]
        false =
      (renameFs [("data", FKind.dirK)] "data" ("data" ++ "_old"),
       [("data", "data" ++ "_old")]) ∧
    rename_conflicting_files [("data", FKind.dirK), ("data_old", FKind.dirK)]
        [["data", "x.txt"]] false =
      (renameFs [("data", FKind.dirK), ("data_old", FKind.dirK)] "data"
          ("data" ++ "_old_" ++ toString 1),
       [("data", "data" ++ "_old_" ++ toString 1)]) ∧
    rename_conflicting_files [("data", FKind.dirK)] [["data", "x.txt"]]
        true = ([("data", FKind.dirK)], []) :=
  ⟨conflict_rename_old_then_old_1.2.1 [("data", FKind.dirK)]
      [["data", "x.txt"]] "data" (by decide) (by decide) (by decide),
   conflict_rename_old_then_old_1.2.2
      [("data", FKind.dirK), ("data_old", FKind.dirK)]
      [["data", "x.txt"]] "data" FKind.dirK
      (by decide) (by decide) (by decide) (by decide),
   conflict_rename_old_then_old_1.1 [("data", FKind.dirK)]
      [["data", "x.txt"]]⟩

/-- C10: in list-only mode without `force`, the restore tool still applies
the conflict renames before listing: the destination listing afterwards is
exactly what `rename_conflicting_files` produces, the renames are applied,
the entries are listed, and nothing is extracted — so a supposedly
read-only listing can mutate the destination filesystem. -/
theorem listen_mode_still_renames (fs : List (String × FKind))
    (entries : List (List String)) :
    (decypherx_main fs entries true false).extracted = false ∧
    (decypherx_main fs entries true false).listed = entries ∧
    (decypherx_main fs entries true false).fs =
      (rename_conflicting_files fs entries false).1 ∧
    (decypherx_main fs entries true false).renames =
      (rename_conflicting_files fs entries false).2 := by
  simp [decypherx_main]

/-- Concrete instance: listing `data/x.txt` against a destination already
holding `data/` renames it to `data_old` even though nothing is
extracted. -/
theorem listen_mode_still_renames_witness :
    (decypherx_main [("data", FKind.dirK)] [["data", "x.txt"]]
        true false).extracted = false ∧
    (decypherx_main [("data", FKind.dirK)] [["data", "x.txt"]]
        true false).fs = [("data_old", FKind.dirK)] :=
  ⟨(listen_mode_still_renames [("data", FKind.dirK)] [["data", "x.txt"]]).1,
   by decide⟩

/-- C5 (code bug): the retry loop never retries.  `create_ssh_client`
catches the connection failure itself and calls `sys.exit(1)`; the raised
`SystemExit` is not an `Exception`, so the `except Exception` handler of
`establish_ssh_connection` never runs: any first-attempt failure aborts the
whole program after exactly one attempt and zero sleeps — even when the
second and third attempts would have succeeded — contradicting the
function's own docstring ("Retries up to 3 times in case of failure") and
the claim. -/
theorem ssh_retry_never_happens :
    (∀ env : Nat → Bool, env 1 = false →
      establish_ssh_connection env =
        ⟨Except.error (PyExc.systemExit 1), 1, 0⟩) ∧
    establish_ssh_connection (fun n => Nat.ble 2 n) =
      ⟨Except.error (PyExc.systemExit 1), 1, 0⟩ ∧
    (∀ env : Nat → Bool, env 1 = true →
      establish_ssh_connection env = ⟨Except.ok (), 1, 0⟩) := by
  refine ⟨?_, ?_, ?_⟩
  · intro env h
    simp [establish_ssh_connection, establishOver, create_ssh_client, h,
      caughtByExceptException]
  · rfl
  · intro env h
    simp [establish_ssh_connection, establishOver, create_ssh_client, h]

/-- Concrete instance: attempt 1 fails while attempts 2 and 3 would
succeed, yet the program aborts with exit 1 after one attempt and no
sleep. -/
theorem ssh_retry_never_happens_witness :
    establish_ssh_connection (fun n => Nat.ble 2 n) =
      ⟨Except.error (PyExc.systemExit 1), 1, 0⟩ :=
  ssh_retry_never_happens.1 (fun n => Nat.ble 2 n) (by decide)

/-- C6 counterexample: a directory listing an unparseable-timestamp file
before a parseable file older than the threshold.  The claim says the bad
file is skipped and the sweep continues, deleting the old file; the code
stops the whole sweep at the bad file and deletes nothing. -/
theorem sweep_skip_counterexample :
    delete_backups sweepThreshold
      [⟨"backup_bad_ts.zip", true⟩, ⟨"b_2020-01-01_00-00-00.zip", true⟩] =
      ⟨[], true⟩ ∧
    sweepEligible sweepThreshold ⟨"b_2020-01-01_00-00-00.zip", true⟩ = true := by
  constructor
  · rfl
  · rfl

/-- C6 amended: a file whose name fails the timestamp pattern is never
deleted, and only files with a parseable embedded timestamp older than the
threshold are deleted; a name with fewer than 3 underscore-separated parts
is skipped and the sweep continues, but an unparseable timestamp raises
inside the loop and is caught only by the handler wrapping the whole loop:
the offending file is left untouched and the function still returns
normally (the pipeline is never aborted), yet the sweep stops there and the
remaining files are not examined.  The deleted files are exactly the
eligible ones occurring before the first parse failure. -/
theorem sweep_stops_at_first_parse_failure (threshold : Nat)
    (entries : List DirEntry) :
    delete_backups threshold entries =
      ⟨((entries.takeWhile (fun e => !sweepFails e)).filter
          (sweepEligible threshold)).map DirEntry.name,
       entries.any sweepFails⟩ := by
  induction entries with
  | nil => rfl
  | cons e rest ih =>
    by_cases hf : e.isFile
    · by_cases hl : (sweepParts e.name).length < 3
      · simp [delete_backups, sweepFails, sweepEligible, hf, hl, ih]
      · cases hp : sweepParse e.name with
        | none =>
          simp [delete_backups, sweepFails, sweepEligible, hf, hl, hp]
        | some r =>
          by_cases hr : r < threshold
          · simp [delete_backups, sweepFails, sweepEligible, hf, hl, hp, hr, ih]
          · simp [delete_backups, sweepFails, sweepEligible, hf, hl, hp, hr, ih]
    · simp [delete_backups, sweepFails, sweepEligible, hf, ih]

/-- C8 counterexample: a `source` value of exactly its declared maximum
length (1024) aborts the run with exit status 1, but when the local
`backups` directory does not yet exist the startup has already created it —
a filesystem mutation before the validation error, contradicting the
"before any filesystem mutation" part of the claim. -/
theorem field_limit_mutation_counterexample :
    backupx_startup false
        [⟨"source", 1024, ⟨List.replicate 1024 'a'⟩⟩]
        [FsEvent.mkdirEv "destdir"] =
      ([FsEvent.mkdirEv "backups"], Except.error 1) ∧
    ([FsEvent.mkdirEv "backups"] : List FsEvent) ≠ [] := by
  constructor
  · rfl
  · simp

/-- C8 amended: any configuration field at or beyond its declared maximum
length makes the run abort with exit status 1 before any further
filesystem activity — none of the events of the rest of the pipeline
happen, only the unconditional `backups` directory creation that precedes
validation — while a configuration with every field strictly below its
limit passes the check and continues. -/
theorem field_limit_aborts_before_pipeline (backupsDirExists : Bool)
    (fields : List CfgField) (restEvents : List FsEvent) :
    ((∀ f ∈ fields, f.value.length < f.maxLen) ∧
      backupx_startup backupsDirExists fields restEvents =
        ((if backupsDirExists then [] else [FsEvent.mkdirEv "backups"]) ++
          restEvents, Except.ok ())) ∨
    ((∃ f ∈ fields, f.maxLen ≤ f.value.length) ∧
      backupx_startup backupsDirExists fields restEvents =
        ((if backupsDirExists then [] else [FsEvent.mkdirEv "backups"]),
         Except.error 1)) := by
  induction fields with
  | nil => left; exact ⟨by simp, by simp [backupx_startup, field_limits_check]⟩
  | cons f rest ih =>
    by_cases h : f.maxLen ≤ f.value.length
    · right
      refine ⟨⟨f, by simp, h⟩, ?_⟩
      simp [backupx_startup, field_limits_check, h]
    · rcases ih with ⟨hall, heq⟩ | ⟨⟨g, hg, hgl⟩, heq⟩
      · left
        refine ⟨?_, ?_⟩
        · intro x hx
          rcases List.mem_cons.mp hx with rfl | hx
          · omega
          · exact hall x hx
        · simp only [backupx_startup, field_limits_check, if_neg h] at heq ⊢
          exact heq
      · right
        refine ⟨⟨g, List.mem_cons_of_mem f hg, hgl⟩, ?_⟩
        simp only [backupx_startup, field_limits_check, if_neg h] at heq ⊢
        exact heq

/-- Concrete instance of the amended claim: an over-limit `ssh_host`
(255 characters against limit 255) aborts with only the `backups` creation
in the trace. -/
theorem field_limit_aborts_before_pipeline_witness :
    (∃ f ∈ [(⟨"ssh_host", 255, ⟨List.replicate 255 'h'⟩⟩ : CfgField)],
      f.maxLen ≤ f.value.length) ∧
    backupx_startup false [⟨"ssh_host", 255, ⟨List.replicate 255 'h'⟩⟩]
        [FsEvent.writeEv "archive"] =
      ([FsEvent.mkdirEv "backups"], Except.error 1) := by
  rcases field_limit_aborts_before_pipeline false
      [⟨"ssh_host", 255, ⟨List.replicate 255 'h'⟩⟩]
      [FsEvent.writeEv "archive"] with ⟨hall, _⟩ | ⟨hex, heq⟩
  · exfalso
    have h := hall ⟨"ssh_host", 255, ⟨List.replicate 255 'h'⟩⟩
      (List.mem_singleton_self _)
    simp [String.length] at h
  · exact ⟨hex, by simpa using heq⟩

theorem aes256_fips197_encrypt_vector :
    aesEncBlock
      (keyExpansion ((List.range 32)))
      [0, 17, 34, 51, 68, 85, 102, 119, 136, 153, 170, 187, 204, 221, 238, 255] =
      [142, 162, 183, 202, 81, 103, 69, 191, 234, 252, 73, 144, 75, 73, 96, 137] := by
  decide

theorem aes256_fips197_decrypt_vector :
    aesDecBlock
      (keyExpansion ((List.range 32)))
      [142, 162, 183, 202, 81, 103, 69, 191, 234, 252, 73, 144, 75, 73, 96, 137] =
      [0, 17, 34, 51, 68, 85, 102, 119, 136, 153, 170, 187, 204, 221, 238, 255] := by
  decide

theorem sha256_empty_vector :
    sha256Bytes [] =
      [227, 176, 196, 66, 152, 252, 28, 20, 154, 251, 244, 200, 153, 111, 185,
       36, 39, 174, 65, 228, 100, 155, 147, 76, 164, 149, 153, 27, 120, 82,
       184, 85] := by
  decide

theorem sha256_abc_vector :
    sha256Bytes [97, 98, 99] =
      [186, 120, 22, 191, 143, 1, 207, 234, 65, 65, 64, 222, 93, 174, 34, 35,
       176, 3, 97, 163, 150, 23, 122, 156, 180, 16, 255, 97, 242, 0, 21, 173] := by
  decide

/-- C3 counterexample: decrypting with the wrong password "pw845" a file
encrypted under "correct horse" succeeds silently — the wrongly decrypted
block happens to end in a valid PKCS#7 byte — and writes 15 bytes of
garbage over the original file name, refuting "decrypting with a wrong
password fails with a CryptoError and never silently returns corrupted
plaintext".  (There is no authentication tag: the only failure signal is
the padding check.) -/
theorem wrong_password_silent_corruption :
    decrypt_file (encrypt_file "backup.zip" ptSample pwGood ivSample).path
        (encrypt_file "backup.zip" ptSample pwGood ivSample).content pwBad =
      Except.ok ("backup.zip",
        [185, 15, 228, 88, 239, 0, 216, 247, 87, 118, 243, 67, 154, 190, 29]) ∧
    ([185, 15, 228, 88, 239, 0, 216, 247, 87, 118, 243, 67, 154, 190, 29] :
        List Nat) ≠ ptSample ∧
    pwBad ≠ pwGood ∧
    derive_key pwBad ≠ derive_key pwGood := by
  refine ⟨by decide, by decide, by decide, by decide⟩

theorem xor_lcomm (a b c : Nat) : a ^^^ (b ^^^ c) = b ^^^ (a ^^^ c) := by
  rw [← Nat.xor_assoc, Nat.xor_comm a b, Nat.xor_assoc]

theorem xor_mix4 (p q r s : Nat) :
    (p ^^^ q) ^^^ (r ^^^ s) = (p ^^^ r) ^^^ (q ^^^ s) := by
  simp only [Nat.xor_assoc]
  rw [xor_lcomm q r s]

theorem shiftRight_xor_distrib (a b n : Nat) :
    (a ^^^ b) >>> n = a >>> n ^^^ b >>> n := by
  apply Nat.eq_of_testBit_eq
  intro i
  simp

theorem shiftLeft_xor_distrib (a b n : Nat) :
    (a ^^^ b) <<< n = a <<< n ^^^ b <<< n := by
  apply Nat.eq_of_testBit_eq
  intro i
  simp only [Nat.testBit_shiftLeft, Nat.testBit_xor]
  cases Decidable.decide (n ≤ i) <;> simp

theorem and_xor_distrib_right2 (a b c : Nat) :
    (a ^^^ b) &&& c = (a &&& c) ^^^ (b &&& c) := by
  apply Nat.eq_of_testBit_eq
  intro i
  simp only [Nat.testBit_and, Nat.testBit_xor]
  cases a.testBit i <;> cases b.testBit i <;> cases c.testBit i <;> rfl

theorem two_mul_eq_shiftLeft (x : Nat) : 2 * x = x <<< 1 := by
  rw [Nat.shiftLeft_eq]
  ring

theorem mul27_xor {u v : Nat} (hu : u ≤ 1) (hv : v ≤ 1) :
    27 * (u ^^^ v) = (27 * u) ^^^ (27 * v) := by
  rcases Nat.le_one_iff_eq_zero_or_eq_one.mp hu with rfl | rfl <;>
    rcases Nat.le_one_iff_eq_zero_or_eq_one.mp hv with rfl | rfl <;> rfl

theorem shiftRight7_le_one {a : Nat} (ha : a < 256) : a >>> 7 ≤ 1 := by
  rw [Nat.shiftRight_eq_div_pow]
  omega

/-- xtime is GF(2)-linear on bytes. -/
theorem xtime_linear {a b : Nat} (ha : a < 256) (hb : b < 256) :
    xtime (a ^^^ b) = xtime a ^^^ xtime b := by
  unfold xtime
  simp only [two_mul_eq_shiftLeft]
  rw [shiftLeft_xor_distrib, shiftRight_xor_distrib,
    mul27_xor (shiftRight7_le_one ha) (shiftRight7_le_one hb),
    xor_mix4, and_xor_distrib_right2]

/-- xtime lands in the byte range. -/
theorem xtime_lt (b : Nat) : xtime b < 256 :=
  Nat.lt_of_le_of_lt Nat.and_le_right (by norm_num)

theorem byte_xor_lt {a b : Nat} (ha : a < 256) (hb : b < 256) :
    a ^^^ b < 256 := by
  have h8 : (256 : Nat) = 2 ^ 8 := by norm_num
  rw [h8] at ha hb ⊢
  exact Nat.xor_lt_two_pow ha hb

theorem xor_mix6 (p1 q1 p2 q2 p3 q3 : Nat) :
    (p1 ^^^ q1) ^^^ (p2 ^^^ q2) ^^^ (p3 ^^^ q3) =
      (p1 ^^^ p2 ^^^ p3) ^^^ (q1 ^^^ q2 ^^^ q3) := by
  rw [xor_mix4 p1 q1 p2 q2, xor_mix4 (p1 ^^^ p2) (q1 ^^^ q2) p3 q3]

theorem gm3_lt {b : Nat} (h : b < 256) : gm3 b < 256 :=
  byte_xor_lt (xtime_lt _) h

theorem gm9_lt {b : Nat} (h : b < 256) : gm9 b < 256 :=
  byte_xor_lt (xtime_lt _) h

theorem gm11_lt {b : Nat} (h : b < 256) : gm11 b < 256 :=
  byte_xor_lt (byte_xor_lt (xtime_lt _) (xtime_lt _)) h

theorem gm13_lt {b : Nat} (h : b < 256) : gm13 b < 256 :=
  byte_xor_lt (byte_xor_lt (xtime_lt _) (xtime_lt _)) h

theorem gm14_lt (b : Nat) : gm14 b < 256 :=
  byte_xor_lt (byte_xor_lt (xtime_lt _) (xtime_lt _)) (xtime_lt _)

theorem gm2_linear {a b : Nat} (ha : a < 256) (hb : b < 256) :
    gm2 (a ^^^ b) = gm2 a ^^^ gm2 b := xtime_linear ha hb

theorem gm3_linear {a b : Nat} (ha : a < 256) (hb : b < 256) :
    gm3 (a ^^^ b) = gm3 a ^^^ gm3 b := by
  unfold gm3
  rw [xtime_linear ha hb, xor_mix4]

theorem xtime3_linear {a b : Nat} (ha : a < 256) (hb : b < 256) :
    xtime (xtime (xtime (a ^^^ b))) =
      xtime (xtime (xtime a)) ^^^ xtime (xtime (xtime b)) := by
  rw [xtime_linear ha hb, xtime_linear (xtime_lt _) (xtime_lt _),
    xtime_linear (xtime_lt _) (xtime_lt _)]

theorem xtime2_linear {a b : Nat} (ha : a < 256) (hb : b < 256) :
    xtime (xtime (a ^^^ b)) = xtime (xtime a) ^^^ xtime (xtime b) := by
  rw [xtime_linear ha hb, xtime_linear (xtime_lt _) (xtime_lt _)]

theorem gm9_linear {a b : Nat} (ha : a < 256) (hb : b < 256) :
    gm9 (a ^^^ b) = gm9 a ^^^ gm9 b := by
  unfold gm9
  rw [xtime3_linear ha hb, xor_mix4]

theorem gm11_linear {a b : Nat} (ha : a < 256) (hb : b < 256) :
    gm11 (a ^^^ b) = gm11 a ^^^ gm11 b := by
  unfold gm11
  rw [xtime3_linear ha hb, xtime_linear ha hb, xor_mix6]

theorem gm13_linear {a b : Nat} (ha : a < 256) (hb : b < 256) :
    gm13 (a ^^^ b) = gm13 a ^^^ gm13 b := by
  unfold gm13
  rw [xtime3_linear ha hb, xtime2_linear ha hb, xor_mix6]

theorem gm14_linear {a b : Nat} (ha : a < 256) (hb : b < 256) :
    gm14 (a ^^^ b) = gm14 a ^^^ gm14 b := by
  unfold gm14
  rw [xtime3_linear ha hb, xtime2_linear ha hb, xtime_linear ha hb, xor_mix6]

theorem gfL1 : ∀ x : Fin 256,
    gm14 (gm2 x.val) ^^^ gm11 x.val ^^^ gm13 x.val ^^^ gm9 (gm3 x.val) =
      x.val := by decide

theorem gfL2 : ∀ x : Fin 256,
    gm14 (gm3 x.val) ^^^ gm11 (gm2 x.val) ^^^ gm13 x.val ^^^ gm9 x.val =
      0 := by decide

theorem gfL3 : ∀ x : Fin 256,
    gm14 x.val ^^^ gm11 (gm3 x.val) ^^^ gm13 (gm2 x.val) ^^^ gm9 x.val =
      0 := by decide

theorem gfL4 : ∀ x : Fin 256,
    gm14 x.val ^^^ gm11 x.val ^^^ gm13 (gm3 x.val) ^^^ gm9 (gm2 x.val) =
      0 := by decide

theorem sbox_inv_fin : ∀ b : Fin 256, invSboxB (sboxB b.val) = b.val := by
  decide

theorem sbox_lt_fin : ∀ b : Fin 256, sboxB b.val < 256 := by decide

theorem invSbox_lt_fin : ∀ b : Fin 256, invSboxB b.val < 256 := by decide

theorem sboxB_lt (b : Nat) : sboxB b < 256 := by
  by_cases h : b < 256
  · exact sbox_lt_fin ⟨b, h⟩
  · rw [sboxB, List.getD_eq_default]
    · norm_num
    · have : sboxTable.length = 256 := by decide
      omega

theorem invSboxB_lt (b : Nat) : invSboxB b < 256 := by
  by_cases h : b < 256
  · exact invSbox_lt_fin ⟨b, h⟩
  · rw [invSboxB, List.getD_eq_default]
    · norm_num
    · have : invSboxTable.length = 256 := by decide
      omega

theorem xor_rot4 (w x y z : Nat) :
    w ^^^ x ^^^ y ^^^ z = x ^^^ y ^^^ z ^^^ w := by
  simp only [Nat.xor_assoc]
  rw [Nat.xor_comm w (x ^^^ (y ^^^ z))]
  simp only [Nat.xor_assoc]

theorem xor_transpose16
    (a1 b1 c1 d1 a2 b2 c2 d2 a3 b3 c3 d3 a4 b4 c4 d4 : Nat) :
    (a1 ^^^ b1 ^^^ c1 ^^^ d1) ^^^ (a2 ^^^ b2 ^^^ c2 ^^^ d2) ^^^
      (a3 ^^^ b3 ^^^ c3 ^^^ d3) ^^^ (a4 ^^^ b4 ^^^ c4 ^^^ d4) =
    (a1 ^^^ a2 ^^^ a3 ^^^ a4) ^^^ (b1 ^^^ b2 ^^^ b3 ^^^ b4) ^^^
      (c1 ^^^ c2 ^^^ c3 ^^^ c4) ^^^ (d1 ^^^ d2 ^^^ d3 ^^^ d4) := by
  simp only [Nat.xor_assoc]
  simp [Nat.xor_comm, xor_lcomm]

theorem gm2_lt (b : Nat) : gm2 b < 256 := xtime_lt b

theorem gfL1n (x : Nat) (h : x < 256) :
    gm14 (gm2 x) ^^^ gm11 x ^^^ gm13 x ^^^ gm9 (gm3 x) = x := gfL1 ⟨x, h⟩

theorem gfL2n (x : Nat) (h : x < 256) :
    gm14 (gm3 x) ^^^ gm11 (gm2 x) ^^^ gm13 x ^^^ gm9 x = 0 := gfL2 ⟨x, h⟩

theorem gfL3n (x : Nat) (h : x < 256) :
    gm14 x ^^^ gm11 (gm3 x) ^^^ gm13 (gm2 x) ^^^ gm9 x = 0 := gfL3 ⟨x, h⟩

theorem gfL4n (x : Nat) (h : x < 256) :
    gm14 x ^^^ gm11 x ^^^ gm13 (gm3 x) ^^^ gm9 (gm2 x) = 0 := gfL4 ⟨x, h⟩

theorem gm9_lin4 {p q r s : Nat} (hp : p < 256) (hq : q < 256)
    (hr : r < 256) (hs : s < 256) :
    gm9 (p ^^^ q ^^^ r ^^^ s) = gm9 p ^^^ gm9 q ^^^ gm9 r ^^^ gm9 s := by
  rw [gm9_linear (byte_xor_lt (byte_xor_lt hp hq) hr) hs,
    gm9_linear (byte_xor_lt hp hq) hr, gm9_linear hp hq]

theorem gm11_lin4 {p q r s : Nat} (hp : p < 256) (hq : q < 256)
    (hr : r < 256) (hs : s < 256) :
    gm11 (p ^^^ q ^^^ r ^^^ s) = gm11 p ^^^ gm11 q ^^^ gm11 r ^^^ gm11 s := by
  rw [gm11_linear (byte_xor_lt (byte_xor_lt hp hq) hr) hs,
    gm11_linear (byte_xor_lt hp hq) hr, gm11_linear hp hq]

theorem gm13_lin4 {p q r s : Nat} (hp : p < 256) (hq : q < 256)
    (hr : r < 256) (hs : s < 256) :
    gm13 (p ^^^ q ^^^ r ^^^ s) = gm13 p ^^^ gm13 q ^^^ gm13 r ^^^ gm13 s := by
  rw [gm13_linear (byte_xor_lt (byte_xor_lt hp hq) hr) hs,
    gm13_linear (byte_xor_lt hp hq) hr, gm13_linear hp hq]

theorem gm14_lin4 {p q r s : Nat} (hp : p < 256) (hq : q < 256)
    (hr : r < 256) (hs : s < 256) :
    gm14 (p ^^^ q ^^^ r ^^^ s) = gm14 p ^^^ gm14 q ^^^ gm14 r ^^^ gm14 s := by
  rw [gm14_linear (byte_xor_lt (byte_xor_lt hp hq) hr) hs,
    gm14_linear (byte_xor_lt hp hq) hr, gm14_linear hp hq]

theorem xor_rot4b (w x y z : Nat) :
    w ^^^ x ^^^ y ^^^ z = y ^^^ z ^^^ w ^^^ x := by
  rw [xor_rot4, xor_rot4 x]

theorem xor_rot4c (w x y z : Nat) :
    w ^^^ x ^^^ y ^^^ z = z ^^^ w ^^^ x ^^^ y := by
  rw [xor_rot4b, xor_rot4 y]

/-- InvMixColumns is a left inverse of MixColumns on one byte column. -/
theorem invMixCol_mixCol {a b c d : Nat} (ha : a < 256) (hb : b < 256)
    (hc : c < 256) (hd : d < 256) :
    invMixCol (gm2 a ^^^ gm3 b ^^^ c ^^^ d) (a ^^^ gm2 b ^^^ gm3 c ^^^ d)
      (a ^^^ b ^^^ gm2 c ^^^ gm3 d) (gm3 a ^^^ b ^^^ c ^^^ gm2 d) =
      [a, b, c, d] := by
  unfold invMixCol
  simp only [List.cons.injEq, and_true]
  refine ⟨?_, ?_, ?_, ?_⟩
  · rw [gm14_lin4 (gm2_lt a) (gm3_lt hb) hc hd,
      gm11_lin4 ha (gm2_lt b) (gm3_lt hc) hd,
      gm13_lin4 ha hb (gm2_lt c) (gm3_lt hd),
      gm9_lin4 (gm3_lt ha) hb hc (gm2_lt d),
      xor_transpose16,
      gfL1n a ha, gfL2n b hb, gfL3n c hc, gfL4n d hd]
    simp
  · rw [gm9_lin4 (gm2_lt a) (gm3_lt hb) hc hd,
      gm14_lin4 ha (gm2_lt b) (gm3_lt hc) hd,
      gm11_lin4 ha hb (gm2_lt c) (gm3_lt hd),
      gm13_lin4 (gm3_lt ha) hb hc (gm2_lt d),
      xor_transpose16,
      xor_rot4 (gm9 (gm2 a)) (gm14 a) (gm11 a) (gm13 (gm3 a)),
      xor_rot4 (gm9 (gm3 b)) (gm14 (gm2 b)) (gm11 b) (gm13 b),
      xor_rot4 (gm9 c) (gm14 (gm3 c)) (gm11 (gm2 c)) (gm13 c),
      xor_rot4 (gm9 d) (gm14 d) (gm11 (gm3 d)) (gm13 (gm2 d)),
      gfL4n a ha, gfL1n b hb, gfL2n c hc, gfL3n d hd]
    simp
  · rw [gm13_lin4 (gm2_lt a) (gm3_lt hb) hc hd,
      gm9_lin4 ha (gm2_lt b) (gm3_lt hc) hd,
      gm14_lin4 ha hb (gm2_lt c) (gm3_lt hd),
      gm11_lin4 (gm3_lt ha) hb hc (gm2_lt d),
      xor_transpose16,
      xor_rot4b (gm13 (gm2 a)) (gm9 a) (gm14 a) (gm11 (gm3 a)),
      xor_rot4b (gm13 (gm3 b)) (gm9 (gm2 b)) (gm14 b) (gm11 b),
      xor_rot4b (gm13 c) (gm9 (gm3 c)) (gm14 (gm2 c)) (gm11 c),
      xor_rot4b (gm13 d) (gm9 d) (gm14 (gm3 d)) (gm11 (gm2 d)),
      gfL3n a ha, gfL4n b hb, gfL1n c hc, gfL2n d hd]
    simp
  · rw [gm11_lin4 (gm2_lt a) (gm3_lt hb) hc hd,
      gm13_lin4 ha (gm2_lt b) (gm3_lt hc) hd,
      gm9_lin4 ha hb (gm2_lt c) (gm3_lt hd),
      gm14_lin4 (gm3_lt ha) hb hc (gm2_lt d),
      xor_transpose16,
      xor_rot4c (gm11 (gm2 a)) (gm13 a) (gm9 a) (gm14 (gm3 a)),
      xor_rot4c (gm11 (gm3 b)) (gm13 (gm2 b)) (gm9 b) (gm14 b),
      xor_rot4c (gm11 c) (gm13 (gm3 c)) (gm9 (gm2 c)) (gm14 c),
      xor_rot4c (gm11 d) (gm13 d) (gm9 (gm3 d)) (gm14 (gm2 d)),
      gfL2n a ha, gfL3n b hb, gfL4n c hc, gfL1n d hd]
    simp

theorem list_len16 (s : List Nat) (h : s.length = 16) :
    ∃ a0 a1 a2 a3 a4 a5 a6 a7 a8 a9 a10 a11 a12 a13 a14 a15,
      s = [a0, a1, a2, a3, a4, a5, a6, a7, a8, a9, a10, a11, a12, a13, a14, a15] := by
  rcases s with _ | ⟨a0, s⟩; · simp at h
  rcases s with _ | ⟨a1, s⟩; · simp at h
  rcases s with _ | ⟨a2, s⟩; · simp at h
  rcases s with _ | ⟨a3, s⟩; · simp at h
  rcases s with _ | ⟨a4, s⟩; · simp at h
  rcases s with _ | ⟨a5, s⟩; · simp at h
  rcases s with _ | ⟨a6, s⟩; · simp at h
  rcases s with _ | ⟨a7, s⟩; · simp at h
  rcases s with _ | ⟨a8, s⟩; · simp at h
  rcases s with _ | ⟨a9, s⟩; · simp at h
  rcases s with _ | ⟨a10, s⟩; · simp at h
  rcases s with _ | ⟨a11, s⟩; · simp at h
  rcases s with _ | ⟨a12, s⟩; · simp at h
  rcases s with _ | ⟨a13, s⟩; · simp at h
  rcases s with _ | ⟨a14, s⟩; · simp at h
  rcases s with _ | ⟨a15, s⟩; · simp at h
  rcases s with _ | ⟨a16, s⟩
  · exact ⟨a0, a1, a2, a3, a4, a5, a6, a7, a8, a9, a10, a11, a12, a13, a14,
      a15, rfl⟩
  · simp at h

theorem invShiftRows_shiftRows (s : List Nat) (h : s.length = 16) :
    invShiftRows (shiftRows s) = s := by
  obtain ⟨a0, a1, a2, a3, a4, a5, a6, a7, a8, a9, a10, a11, a12, a13, a14,
    a15, rfl⟩ := list_len16 s h
  rfl

theorem invSubBytes_subBytes (s : List Nat) (hB : BytesLt s) :
    invSubBytes (subBytes s) = s := by
  induction s with
  | nil => rfl
  | cons x xs ih =>
    have hx : x < 256 := hB x (List.mem_cons_self x xs)
    have ihh := ih (fun b hb => hB b (List.mem_cons_of_mem x hb))
    simp only [subBytes, invSubBytes, List.map_cons] at ihh ⊢
    rw [show invSboxB (sboxB x) = x from sbox_inv_fin ⟨x, hx⟩]
    simp_all

theorem invMixColumns_mixColumns (s : List Nat) (h : s.length = 16)
    (hB : BytesLt s) : invMixColumns (mixColumns s) = s := by
  obtain ⟨a0, a1, a2, a3, a4, a5, a6, a7, a8, a9, a10, a11, a12, a13, a14,
    a15, rfl⟩ := list_len16 s h
  simp only [BytesLt, List.mem_cons, List.not_mem_nil, or_false,
    forall_eq_or_imp, forall_eq] at hB
  obtain ⟨h0, h1, h2, h3, h4, h5, h6, h7, h8, h9, h10, h11, h12, h13, h14,
    h15⟩ := hB
  show invMixColumns (mixCol a0 a1 a2 a3 ++ mixCol a4 a5 a6 a7 ++
    mixCol a8 a9 a10 a11 ++ mixCol a12 a13 a14 a15) = _
  simp only [mixCol, List.cons_append, List.nil_append]
  show invMixCol _ _ _ _ ++ invMixCol _ _ _ _ ++ invMixCol _ _ _ _ ++
    invMixCol _ _ _ _ = _
  rw [invMixCol_mixCol h0 h1 h2 h3, invMixCol_mixCol h4 h5 h6 h7,
    invMixCol_mixCol h8 h9 h10 h11, invMixCol_mixCol h12 h13 h14 h15]
  rfl

theorem subBytes_length (s : List Nat) : (subBytes s).length = s.length := by
  simp [subBytes]

theorem subBytes_bytes (s : List Nat) : BytesLt (subBytes s) := by
  intro b hb
  rcases List.mem_map.mp hb with ⟨x, _, rfl⟩
  exact sboxB_lt x

theorem shiftRows_length {s : List Nat} (h : s.length = 16) :
    (shiftRows s).length = 16 := by
  obtain ⟨a0, a1, a2, a3, a4, a5, a6, a7, a8, a9, a10, a11, a12, a13, a14,
    a15, rfl⟩ := list_len16 s h
  rfl

theorem shiftRows_bytes {s : List Nat} (h : s.length = 16) (hB : BytesLt s) :
    BytesLt (shiftRows s) := by
  obtain ⟨a0, a1, a2, a3, a4, a5, a6, a7, a8, a9, a10, a11, a12, a13, a14,
    a15, rfl⟩ := list_len16 s h
  intro b hb
  simp only [shiftRows, List.mem_cons, List.not_mem_nil, or_false] at hb
  rcases hb with rfl | rfl | rfl | rfl | rfl | rfl | rfl | rfl | rfl | rfl |
    rfl | rfl | rfl | rfl | rfl | rfl <;> exact hB _ (by simp)

theorem mixCol_bytes {a b c d : Nat} (ha : a < 256) (hb : b < 256)
    (hc : c < 256) (hd : d < 256) : BytesLt (mixCol a b c d) := by
  intro x hx
  simp only [mixCol, List.mem_cons, List.not_mem_nil, or_false] at hx
  rcases hx with rfl | rfl | rfl | rfl
  · exact byte_xor_lt (byte_xor_lt (byte_xor_lt (gm2_lt a) (gm3_lt hb)) hc) hd
  · exact byte_xor_lt (byte_xor_lt (byte_xor_lt ha (gm2_lt b)) (gm3_lt hc)) hd
  · exact byte_xor_lt (byte_xor_lt (byte_xor_lt ha hb) (gm2_lt c)) (gm3_lt hd)
  · exact byte_xor_lt (byte_xor_lt (byte_xor_lt (gm3_lt ha) hb) hc) (gm2_lt d)

theorem mixColumns_length {s : List Nat} (h : s.length = 16) :
    (mixColumns s).length = 16 := by
  obtain ⟨a0, a1, a2, a3, a4, a5, a6, a7, a8, a9, a10, a11, a12, a13, a14,
    a15, rfl⟩ := list_len16 s h
  rfl

theorem mixColumns_bytes {s : List Nat} (h : s.length = 16)
    (hB : BytesLt s) : BytesLt (mixColumns s) := by
  obtain ⟨a0, a1, a2, a3, a4, a5, a6, a7, a8, a9, a10, a11, a12, a13, a14,
    a15, rfl⟩ := list_len16 s h
  simp only [BytesLt, List.mem_cons, List.not_mem_nil, or_false,
    forall_eq_or_imp, forall_eq] at hB
  obtain ⟨h0, h1, h2, h3, h4, h5, h6, h7, h8, h9, h10, h11, h12, h13, h14,
    h15⟩ := hB
  intro x hx
  simp only [mixColumns] at hx
  rcases List.mem_append.mp hx with hx | hx
  · rcases List.mem_append.mp hx with hx | hx
    · rcases List.mem_append.mp hx with hx | hx
      · exact mixCol_bytes h0 h1 h2 h3 x hx
      · exact mixCol_bytes h4 h5 h6 h7 x hx
    · exact mixCol_bytes h8 h9 h10 h11 x hx
  · exact mixCol_bytes h12 h13 h14 h15 x hx

theorem xorBytes_length (s k : List Nat) :
    (xorBytes s k).length = min s.length k.length := by
  simp [xorBytes]

theorem xorBytes_bytes {s k : List Nat} (hs : BytesLt s) (hk : BytesLt k) :
    BytesLt (xorBytes s k) := by
  induction s generalizing k with
  | nil => intro b hb; simp [xorBytes] at hb
  | cons x xs ih =>
    cases k with
    | nil => intro b hb; simp [xorBytes] at hb
    | cons y ys =>
      intro b hb
      simp only [xorBytes, List.zipWith_cons_cons, List.mem_cons] at hb
      rcases hb with rfl | hb
      · exact byte_xor_lt (hs x (by simp)) (hk y (by simp))
      · exact ih (fun u hu => hs u (by simp [hu]))
          (fun u hu => hk u (by simp [hu])) b hb

theorem xorBytes_cancel {s k : List Nat} (h : s.length = k.length) :
    xorBytes (xorBytes s k) k = s := by
  induction s generalizing k with
  | nil => cases k <;> rfl
  | cons x xs ih =>
    cases k with
    | nil => simp at h
    | cons y ys =>
      simp only [xorBytes, List.zipWith_cons_cons, List.cons.injEq]
      constructor
      · rw [Nat.xor_assoc, Nat.xor_self, Nat.xor_zero]
      · exact ih (by simpa using h)

theorem fullRound_wf {s k : List Nat} (hs16 : s.length = 16)
    (_hsB : BytesLt s) (hk16 : k.length = 16) (hkB : BytesLt k) :
    (addRoundKey (mixColumns (shiftRows (subBytes s))) k).length = 16 ∧
      BytesLt (addRoundKey (mixColumns (shiftRows (subBytes s))) k) := by
  have h1 : (subBytes s).length = 16 := by rw [subBytes_length, hs16]
  have h2 := shiftRows_length h1
  have h3 := mixColumns_length h2
  constructor
  · rw [addRoundKey, xorBytes_length, h3, hk16]; simp
  · exact xorBytes_bytes
      (mixColumns_bytes h2 (shiftRows_bytes h1 (subBytes_bytes s))) hkB

theorem aesEncRounds_wf (ks : List (List Nat)) :
    ∀ s, s.length = 16 → BytesLt s → RKOk ks →
      (aesEncRounds ks s).length = 16 ∧ BytesLt (aesEncRounds ks s) := by
  induction ks with
  | nil => intro s h16 hB _; exact ⟨h16, hB⟩
  | cons k ks ih =>
    intro s h16 hB hks
    obtain ⟨hk16, hkB⟩ := hks k (by simp)
    cases ks with
    | nil =>
      have h1 : (subBytes s).length = 16 := by rw [subBytes_length, h16]
      have h2 := shiftRows_length h1
      constructor
      · show (addRoundKey (shiftRows (subBytes s)) k).length = 16
        rw [addRoundKey, xorBytes_length, h2, hk16]; simp
      · exact xorBytes_bytes (shiftRows_bytes h1 (subBytes_bytes s)) hkB
    | cons k2 ks2 =>
      obtain ⟨hr16, hrB⟩ := fullRound_wf h16 hB hk16 hkB
      exact ih _ hr16 hrB (fun x hx => hks x (by simp [hx]))

theorem aesDecRounds_aesEncRounds (ks : List (List Nat)) :
    ∀ s, s.length = 16 → BytesLt s → RKOk ks →
      aesDecRounds ks (aesEncRounds ks s) = s := by
  induction ks with
  | nil => intro s _ _ _; rfl
  | cons k ks ih =>
    intro s h16 hB hks
    obtain ⟨hk16, hkB⟩ := hks k (by simp)
    have h1 : (subBytes s).length = 16 := by rw [subBytes_length, h16]
    have h2 := shiftRows_length h1
    cases ks with
    | nil =>
      show invSubBytes (invShiftRows
        (addRoundKey (addRoundKey (shiftRows (subBytes s)) k) k)) = s
      rw [addRoundKey, addRoundKey, xorBytes_cancel (by rw [h2, hk16]),
        invShiftRows_shiftRows _ h1, invSubBytes_subBytes s hB]
    | cons k2 ks2 =>
      obtain ⟨hr16, hrB⟩ := fullRound_wf h16 hB hk16 hkB
      show invSubBytes (invShiftRows (invMixColumns (addRoundKey
        (aesDecRounds (k2 :: ks2) (aesEncRounds (k2 :: ks2)
          (addRoundKey (mixColumns (shiftRows (subBytes s))) k))) k))) = s
      rw [ih _ hr16 hrB (fun x hx => hks x (by simp [hx]))]
      have h3 := mixColumns_length h2
      rw [addRoundKey, addRoundKey, xorBytes_cancel (by rw [h3, hk16]),
        invMixColumns_mixColumns _ h2
          (shiftRows_bytes h1 (subBytes_bytes s)),
        invShiftRows_shiftRows _ h1,
        invSubBytes_subBytes s hB]

/-- AES block decryption inverts encryption on 16-byte states under
well-formed round keys. -/
theorem aesDecBlock_aesEncBlock {rks : List (List Nat)} {blk : List Nat}
    (hb16 : blk.length = 16) (hbB : BytesLt blk) (hrk : RKOk rks) :
    aesDecBlock rks (aesEncBlock rks blk) = blk := by
  cases rks with
  | nil => rfl
  | cons k0 ks =>
    obtain ⟨hk16, hkB⟩ := hrk k0 (by simp)
    show addRoundKey (aesDecRounds ks (aesEncRounds ks
      (addRoundKey blk k0))) k0 = blk
    have h16 : (addRoundKey blk k0).length = 16 := by
      rw [addRoundKey, xorBytes_length, hb16, hk16]; simp
    rw [aesDecRounds_aesEncRounds ks _ h16 (xorBytes_bytes hbB hkB)
        (fun x hx => hrk x (by simp [hx])),
      addRoundKey, addRoundKey, xorBytes_cancel (by rw [hb16, hk16])]

theorem aesEncBlock_wf {rks : List (List Nat)} {blk : List Nat}
    (hb16 : blk.length = 16) (hbB : BytesLt blk) (hrk : RKOk rks) :
    (aesEncBlock rks blk).length = 16 ∧ BytesLt (aesEncBlock rks blk) := by
  cases rks with
  | nil => exact ⟨hb16, hbB⟩
  | cons k0 ks =>
    obtain ⟨hk16, hkB⟩ := hrk k0 (by simp)
    have h16 : (addRoundKey blk k0).length = 16 := by
      rw [addRoundKey, xorBytes_length, hb16, hk16]; simp
    exact aesEncRounds_wf ks _ h16 (xorBytes_bytes hbB hkB)
      (fun x hx => hrk x (by simp [hx]))

theorem chunks4_wf (l : List Nat) (hB : BytesLt l) : WordsOk (chunks4 l) := by
  induction l using chunks4.induct with
  | case1 a b c d rest ih =>
    intro w hw
    simp only [chunks4, List.mem_cons] at hw
    rcases hw with rfl | hw
    · refine ⟨rfl, ?_⟩
      intro x hx
      simp only [List.mem_cons, List.not_mem_nil, or_false] at hx
      rcases hx with rfl | rfl | rfl | rfl <;> exact hB _ (by simp)
    · exact ih (fun x hx => hB x (by simp [hx])) w hw
  | case2 l h =>
    intro w hw
    rw [chunks4] at hw
    · simp at hw
    · exact h

theorem gm2Iter_lt (n : Nat) : ∀ b, b < 256 → gm2Iter n b < 256 := by
  induction n with
  | zero => intro b hb; exact hb
  | succ n ih => intro b _; exact ih _ (xtime_lt b)

theorem rconByte_lt (j : Nat) : rconByte j < 256 :=
  gm2Iter_lt (j - 1) 1 (by norm_num)

theorem rotWord_wf {w : List Nat} (h4 : w.length = 4) (hB : BytesLt w) :
    (rotWord w).length = 4 ∧ BytesLt (rotWord w) := by
  rcases w with _ | ⟨a, w⟩; · simp at h4
  rcases w with _ | ⟨b, w⟩; · simp at h4
  rcases w with _ | ⟨c, w⟩; · simp at h4
  rcases w with _ | ⟨d, w⟩; · simp at h4
  rcases w with _ | ⟨e, w⟩
  · refine ⟨rfl, ?_⟩
    intro x hx
    simp only [rotWord, List.mem_cons, List.not_mem_nil, or_false] at hx
    rcases hx with rfl | rfl | rfl | rfl <;> exact hB _ (by simp)
  · simp at h4

theorem subWord_wf {w : List Nat} (h4 : w.length = 4) :
    (subWord w).length = 4 ∧ BytesLt (subWord w) := by
  refine ⟨by simp [subWord, h4], ?_⟩
  intro b hb
  rcases List.mem_map.mp hb with ⟨x, _, rfl⟩
  exact sboxB_lt x

theorem nextWord_wf {ws : List (List Nat)} (hlen : 8 ≤ ws.length)
    (hws : WordsOk ws) : (nextWord ws).length = 4 ∧ BytesLt (nextWord ws) := by
  have hprev : ws.getD (ws.length - 1) [] ∈ ws := by
    rw [List.getD_eq_getElem?_getD, List.getElem?_eq_getElem (by omega)]
    exact List.getElem_mem _
  have hprev8 : ws.getD (ws.length - 8) [] ∈ ws := by
    rw [List.getD_eq_getElem?_getD, List.getElem?_eq_getElem (by omega)]
    exact List.getElem_mem _
  obtain ⟨hp4, hpB⟩ := hws _ hprev
  obtain ⟨hq4, hqB⟩ := hws _ hprev8
  simp only [List.getD_eq_getElem?_getD] at hp4 hpB hq4 hqB
  constructor
  · by_cases h0 : ws.length % 8 == 0
    · obtain ⟨hr4, _⟩ := rotWord_wf hp4 hpB
      obtain ⟨hs4, _⟩ := subWord_wf hr4
      simp [nextWord, h0, xorBytes_length, hs4, hq4]
    · by_cases h4 : ws.length % 8 == 4
      · obtain ⟨hs4, _⟩ := subWord_wf hp4
        simp [nextWord, h0, h4, xorBytes_length, hs4, hq4]
      · simp [nextWord, h0, h4, xorBytes_length, hp4, hq4]
  · have hrc : BytesLt [rconByte (ws.length / 8), 0, 0, 0] := by
      intro x hx
      simp only [List.mem_cons, List.not_mem_nil, or_false] at hx
      rcases hx with rfl | rfl | rfl | rfl
      · exact rconByte_lt _
      all_goals norm_num
    by_cases h0 : ws.length % 8 == 0
    · obtain ⟨hr4, hrB⟩ := rotWord_wf hp4 hpB
      simp only [nextWord, h0, if_true, List.getD_eq_getElem?_getD]
      exact xorBytes_bytes hqB (xorBytes_bytes (subWord_wf hr4).2 hrc)
    · by_cases h4 : ws.length % 8 == 4
      · simp only [nextWord, h0, h4, Bool.false_eq_true, if_false, if_true,
          List.getD_eq_getElem?_getD]
        exact xorBytes_bytes hqB (subWord_wf hp4).2
      · simp only [nextWord, h0, h4, Bool.false_eq_true, if_false,
          List.getD_eq_getElem?_getD]
        exact xorBytes_bytes hqB hpB

theorem ksAux_wf (n : Nat) :
    ∀ ws, 8 ≤ ws.length → WordsOk ws →
      8 ≤ (ksAux ws n).length ∧ WordsOk (ksAux ws n) := by
  induction n with
  | zero => intro ws h8 hws; exact ⟨h8, hws⟩
  | succ n ih =>
    intro ws h8 hws
    apply ih
    · simp; omega
    · intro w hw
      rcases List.mem_append.mp hw with hw | hw
      · exact hws w hw
      · simp only [List.mem_singleton] at hw
        subst hw
        exact nextWord_wf h8 hws

theorem chunks4_length (l : List Nat) : (chunks4 l).length = l.length / 4 := by
  induction l using chunks4.induct with
  | case1 a b c d rest ih =>
    simp only [chunks4, List.length_cons, ih]
    omega
  | case2 l h =>
    rw [chunks4]
    · rcases l with _ | ⟨a, _ | ⟨b, _ | ⟨c, _ | ⟨d, rest⟩⟩⟩⟩
      · simp
      · simp
      · simp
      · simp
      · exact absurd rfl (by intro hx; exact h a b c d rest hx)
    · exact h

theorem groups4_wf (ws : List (List Nat)) (hws : WordsOk ws) :
    RKOk (groups4 ws) := by
  induction ws using groups4.induct with
  | case1 w0 w1 w2 w3 rest ih =>
    intro k hk
    simp only [groups4, List.mem_cons] at hk
    rcases hk with rfl | hk
    · obtain ⟨h0, h0B⟩ := hws w0 (by simp)
      obtain ⟨h1, h1B⟩ := hws w1 (by simp)
      obtain ⟨h2, h2B⟩ := hws w2 (by simp)
      obtain ⟨h3, h3B⟩ := hws w3 (by simp)
      constructor
      · simp [h0, h1, h2, h3]
      · intro b hb
        simp only [List.append_assoc, List.mem_append] at hb
        rcases hb with hb | hb | hb | hb
        · exact h0B b hb
        · exact h1B b hb
        · exact h2B b hb
        · exact h3B b hb
    · exact ih (fun w hw => hws w (by simp [hw])) k hk
  | case2 ws h =>
    intro k hk
    rw [groups4] at hk
    · simp at hk
    · exact h

/-- The AES-256 key expansion of a 32-byte key yields well-formed round
keys. -/
theorem keyExpansion_wf {key : List Nat} (h32 : key.length = 32)
    (hB : BytesLt key) : RKOk (keyExpansion key) := by
  apply groups4_wf
  refine (ksAux_wf 52 (chunks4 key) ?_ (chunks4_wf key hB)).2
  have : (chunks4 key).length = 8 := by
    rw [chunks4_length, h32]
  omega

theorem chunks16_append {b : List Nat} (h : b.length = 16) (rest : List Nat) :
    chunks16 (b ++ rest) = b :: chunks16 rest := by
  obtain ⟨a0, a1, a2, a3, a4, a5, a6, a7, a8, a9, a10, a11, a12, a13, a14,
    a15, rfl⟩ := list_len16 b h
  rfl

theorem chunks16_flatten {bs : List (List Nat)}
    (h : ∀ b ∈ bs, b.length = 16) : chunks16 bs.flatten = bs := by
  induction bs with
  | nil => rfl
  | cons b rest ih =>
    rw [List.flatten_cons, chunks16_append (h b (by simp)),
      ih (fun x hx => h x (by simp [hx]))]

theorem flatten_chunks16_aux (n : Nat) :
    ∀ l : List Nat, l.length ≤ n → l.length % 16 = 0 →
      (chunks16 l).flatten = l := by
  induction n with
  | zero =>
    intro l hl _
    have : l = [] := List.eq_nil_of_length_eq_zero (by omega)
    subst this
    rfl
  | succ n ih =>
    intro l hl hm
    rcases Nat.eq_zero_or_pos l.length with h0 | hpos
    · have : l = [] := List.eq_nil_of_length_eq_zero h0
      subst this
      rfl
    · have h16 : 16 ≤ l.length := by omega
      have htl : (l.take 16).length = 16 := by
        simp [List.length_take]
        omega
      conv_lhs => rw [← List.take_append_drop 16 l]
      rw [chunks16_append htl, List.flatten_cons,
        ih (l.drop 16) (by simp [List.length_drop]; omega)
          (by simp [List.length_drop]; omega)]
      exact List.take_append_drop 16 l

theorem flatten_chunks16 {l : List Nat} (h : l.length % 16 = 0) :
    (chunks16 l).flatten = l :=
  flatten_chunks16_aux l.length l le_rfl h

theorem chunks16_blocks (l : List Nat) :
    ∀ b ∈ chunks16 l, b.length = 16 ∧ (BytesLt l → BytesLt b) := by
  induction l using chunks16.induct with
  | case1 b0 b1 b2 b3 b4 b5 b6 b7 b8 b9 b10 b11 b12 b13 b14 b15 rest ih =>
    intro b hb
    simp only [chunks16, List.mem_cons] at hb
    rcases hb with rfl | hb
    · refine ⟨rfl, ?_⟩
      intro hB x hx
      simp only [List.mem_cons, List.not_mem_nil, or_false] at hx
      rcases hx with rfl | rfl | rfl | rfl | rfl | rfl | rfl | rfl | rfl |
        rfl | rfl | rfl | rfl | rfl | rfl | rfl <;> exact hB _ (by simp)
    · obtain ⟨hlen, hby⟩ := ih b hb
      exact ⟨hlen, fun hB => hby (fun x hx => hB x (by simp [hx]))⟩
  | case2 l h =>
    intro b hb
    rw [chunks16] at hb
    · simp at hb
    · exact h

theorem cbcEncBlocks_wf {rks : List (List Nat)} (hrk : RKOk rks) :
    ∀ bs prev, prev.length = 16 → BytesLt prev →
      (∀ b ∈ bs, b.length = 16 ∧ BytesLt b) →
      ∀ c ∈ cbcEncBlocks rks prev bs, c.length = 16 ∧ BytesLt c := by
  intro bs
  induction bs with
  | nil => intro prev _ _ _ c hc; simp [cbcEncBlocks] at hc
  | cons b bs ih =>
    intro prev hp16 hpB hbs c hc
    obtain ⟨hb16, hbB⟩ := hbs b (by simp)
    have hx16 : (xorBytes b prev).length = 16 := by
      rw [xorBytes_length, hb16, hp16]; simp
    obtain ⟨he16, heB⟩ := aesEncBlock_wf hx16 (xorBytes_bytes hbB hpB) hrk
    simp only [cbcEncBlocks, List.mem_cons] at hc
    rcases hc with rfl | hc
    · exact ⟨he16, heB⟩
    · exact ih _ he16 heB (fun x hx => hbs x (by simp [hx])) c hc

theorem cbcDecBlocks_cbcEncBlocks {rks : List (List Nat)} (hrk : RKOk rks) :
    ∀ bs prev, prev.length = 16 → BytesLt prev →
      (∀ b ∈ bs, b.length = 16 ∧ BytesLt b) →
      cbcDecBlocks rks prev (cbcEncBlocks rks prev bs) = bs := by
  intro bs
  induction bs with
  | nil => intro prev _ _ _; rfl
  | cons b bs ih =>
    intro prev hp16 hpB hbs
    obtain ⟨hb16, hbB⟩ := hbs b (by simp)
    have hx16 : (xorBytes b prev).length = 16 := by
      rw [xorBytes_length, hb16, hp16]; simp
    have hxB := xorBytes_bytes hbB hpB
    obtain ⟨he16, heB⟩ := aesEncBlock_wf hx16 hxB hrk
    simp only [cbcEncBlocks, cbcDecBlocks, List.cons.injEq]
    constructor
    · rw [aesDecBlock_aesEncBlock hx16 hxB hrk,
        xorBytes_cancel (by rw [hb16, hp16])]
    · exact ih _ he16 heB (fun x hx => hbs x (by simp [hx]))

theorem pkcsPad_length (data : List Nat) :
    (pkcsPad data).length = data.length + (16 - data.length % 16) := by
  simp [pkcsPad]

theorem pkcsPad_mod (data : List Nat) : (pkcsPad data).length % 16 = 0 := by
  rw [pkcsPad_length]
  omega

theorem pkcsPad_bytes {data : List Nat} (hB : BytesLt data) :
    BytesLt (pkcsPad data) := by
  intro b hb
  rcases List.mem_append.mp hb with hb | hb
  · exact hB b hb
  · have := List.eq_of_mem_replicate hb
    subst this
    omega

theorem pkcsUnpad_pkcsPad (data : List Nat) :
    pkcsUnpad (pkcsPad data) = some data := by
  have hmod : data.length % 16 < 16 := Nat.mod_lt _ (by norm_num)
  have hlen := pkcsPad_length data
  have hlast : (pkcsPad data).getLastD 0 = 16 - data.length % 16 := by
    rw [pkcsPad, List.getLastD_eq_getLast?, List.getLast?_append,
      List.getLast?_replicate]
    simp only [if_neg (by omega : ¬(16 - data.length % 16 = 0))]
    rfl
  have heq : data.length + (16 - data.length % 16) - (16 - data.length % 16) =
      data.length := by omega
  have hdrop : (pkcsPad data).drop
      ((pkcsPad data).length - (16 - data.length % 16)) =
      List.replicate (16 - data.length % 16) (16 - data.length % 16) := by
    rw [hlen, heq, pkcsPad]
    exact List.drop_left _ _
  have htake : (pkcsPad data).take
      ((pkcsPad data).length - (16 - data.length % 16)) = data := by
    rw [hlen, heq, pkcsPad]
    exact List.take_left _ _
  have h0 : ((pkcsPad data).length == 0 ||
      (pkcsPad data).length % 16 != 0) = false := by
    have hm := pkcsPad_mod data
    simp only [Bool.or_eq_false_iff, beq_eq_false_iff_ne, ne_eq,
      bne_eq_false_iff_eq]
    constructor
    · rw [hlen]; omega
    · exact hm
  unfold pkcsUnpad
  rw [h0]
  simp only [Bool.false_eq_true, if_false, hlast]
  have hc : (decide (16 - data.length % 16 < 1) ||
      decide (16 < 16 - data.length % 16)) = false := by
    simp only [Bool.or_eq_false_iff, decide_eq_false_iff_not]
    omega
  rw [hc]
  simp only [Bool.false_eq_true, if_false]
  rw [if_pos hdrop, htake]

theorem shaCompressStep_length (st : List Nat) (kw : Nat × Nat) :
    (shaCompressStep st kw).length = st.length := by
  unfold shaCompressStep
  split
  · rfl
  · rfl

theorem shaFoldSteps_length (l : List (Nat × Nat)) :
    ∀ st : List Nat, (l.foldl shaCompressStep st).length = st.length := by
  induction l with
  | nil => intro st; rfl
  | cons kw l ih =>
    intro st
    rw [List.foldl_cons, ih, shaCompressStep_length]

theorem shaCompressBlock_length (h block : List Nat) :
    (shaCompressBlock h block).length = h.length := by
  unfold shaCompressBlock
  rw [List.length_zipWith, shaFoldSteps_length]
  simp

theorem shaFoldBlocks_length (blocks : List (List Nat)) :
    ∀ h : List Nat, (blocks.foldl shaCompressBlock h).length = h.length := by
  induction blocks with
  | nil => intro h; rfl
  | cons b blocks ih =>
    intro h
    rw [List.foldl_cons, ih, shaCompressBlock_length]

theorem flatten_map_wordToBytesBE_length (l : List Nat) :
    ((l.map wordToBytesBE).flatten).length = 4 * l.length := by
  induction l with
  | nil => rfl
  | cons w l ih =>
    simp only [List.map_cons, List.flatten_cons, List.length_append, ih,
      List.length_cons]
    simp [wordToBytesBE]
    ring

/-- A SHA-256 digest is 32 bytes long. -/
theorem sha256Bytes_length (msg : List Nat) :
    (sha256Bytes msg).length = 32 := by
  unfold sha256Bytes
  rw [flatten_map_wordToBytesBE_length, shaFoldBlocks_length]
  rfl

/-- Every digest entry is a byte. -/
theorem sha256Bytes_bytes (msg : List Nat) : BytesLt (sha256Bytes msg) := by
  intro b hb
  unfold sha256Bytes at hb
  rcases List.mem_flatten.mp hb with ⟨l, hl, hbl⟩
  rcases List.mem_map.mp hl with ⟨w, _, rfl⟩
  simp only [wordToBytesBE, List.mem_cons, List.not_mem_nil, or_false] at hbl
  rcases hbl with rfl | rfl | rfl | rfl <;>
    exact Nat.lt_of_le_of_lt Nat.and_le_right (by norm_num)

theorem derive_key_wf (password : List Nat) :
    (derive_key password).length = 32 ∧ BytesLt (derive_key password) :=
  ⟨sha256Bytes_length password, sha256Bytes_bytes password⟩

theorem isPrefixOf_append_self_beq {α : Type} [BEq α] [LawfulBEq α]
    (a b : List α) : a.isPrefixOf (a ++ b) = true := by
  induction a with
  | nil => simp [List.isPrefixOf]
  | cons x xs ih => simp [List.isPrefixOf, ih]

theorem stripAes_append (fp : String) : stripAes (fp ++ ".aes") = fp := by
  unfold stripAes
  have hdata : (fp ++ ".aes").data = fp.data ++ ".aes".data := by
    simp [String.data_append]
  rw [if_pos]
  · rw [hdata]
    have hlen : (fp.data ++ ".aes".data).length = fp.data.length + 4 := by
      simp
    rw [hlen]
    have : fp.data.length + 4 - 4 = fp.data.length := by omega
    rw [this, List.take_left]
  · rw [hdata, List.isSuffixOf, List.reverse_append]
    exact isPrefixOf_append_self_beq _ _

theorem string_append_aes_ne (fp : String) : fp ++ ".aes" ≠ fp := by
  intro h
  have hlen := congrArg String.length h
  rw [String.length_append] at hlen
  have h4 : (".aes" : String).length = 4 := by decide
  rw [h4] at hlen
  omega

theorem flatten16_mod {bs : List (List Nat)} (h : ∀ b ∈ bs, b.length = 16) :
    bs.flatten.length % 16 = 0 := by
  induction bs with
  | nil => rfl
  | cons b bs ih =>
    rw [List.flatten_cons, List.length_append, h b (by simp)]
    have := ih (fun x hx => h x (by simp [hx]))
    omega

/-- C3 amended, round-trip part: encryption writes `IV || ciphertext` (the
AES-256-CBC encryption of the padded plaintext under the single SHA-256
digest of the password) to the new file `path + ".aes"`, leaving the
plaintext path untouched, and decrypting that file with the same password
restores exactly the original bytes at the original path. -/
theorem encrypt_decrypt_roundtrip (fp : String)
    (content password iv : List Nat) (hcB : BytesLt content)
    (hiv16 : iv.length = 16) (hivB : BytesLt iv) :
    (encrypt_file fp content password iv).path = fp ++ ".aes" ∧
    (encrypt_file fp content password iv).path ≠ fp ∧
    (encrypt_file fp content password iv).content =
      iv ++ cbcEncrypt (derive_key password) iv (pkcsPad content) ∧
    decrypt_file (encrypt_file fp content password iv).path
        (encrypt_file fp content password iv).content password =
      Except.ok (fp, content) := by
  obtain ⟨hk32, hkB⟩ := derive_key_wf password
  have hrk := keyExpansion_wf hk32 hkB
  refine ⟨rfl, string_append_aes_ne fp, rfl, ?_⟩
  have hpadBytes := pkcsPad_bytes hcB
  have hblocks : ∀ b ∈ chunks16 (pkcsPad content),
      b.length = 16 ∧ BytesLt b := fun b hb =>
    ⟨(chunks16_blocks _ b hb).1, (chunks16_blocks _ b hb).2 hpadBytes⟩
  have hencWf := cbcEncBlocks_wf hrk (chunks16 (pkcsPad content)) iv
    hiv16 hivB hblocks
  have hctmod : (cbcEncrypt (derive_key password) iv
      (pkcsPad content)).length % 16 = 0 := by
    unfold cbcEncrypt
    exact flatten16_mod (fun b hb => (hencWf b hb).1)
  have htake : (iv ++ cbcEncrypt (derive_key password) iv
      (pkcsPad content)).take 16 = iv := by
    rw [← hiv16]
    exact List.take_left _ _
  have hdrop : (iv ++ cbcEncrypt (derive_key password) iv
      (pkcsPad content)).drop 16 =
      cbcEncrypt (derive_key password) iv (pkcsPad content) := by
    rw [← hiv16]
    exact List.drop_left _ _
  have hdec : cbcDecrypt (derive_key password) iv
      (cbcEncrypt (derive_key password) iv (pkcsPad content)) =
      pkcsPad content := by
    unfold cbcDecrypt cbcEncrypt
    rw [chunks16_flatten (fun b hb => (hencWf b hb).1),
      cbcDecBlocks_cbcEncBlocks hrk _ iv hiv16 hivB hblocks,
      flatten_chunks16 (pkcsPad_mod content)]
  show decrypt_file (fp ++ ".aes")
    (iv ++ cbcEncrypt (derive_key password) iv (pkcsPad content)) password =
    Except.ok (fp, content)
  unfold decrypt_file
  rw [if_neg (by rw [List.length_append, hiv16]; omega)]
  simp only [htake, hdrop]
  have hbne : ((cbcEncrypt (derive_key password) iv
      (pkcsPad content)).length % 16 != 0) = false := by
    simp [hctmod]
  rw [hbne]
  simp only [Bool.false_eq_true, if_false]
  rw [hdec, pkcsUnpad_pkcsPad, stripAes_append]

/-- Concrete instance of the round-trip theorem at the sample plaintext,
password and IV. -/
theorem encrypt_decrypt_roundtrip_witness :
    (encrypt_file "backup.zip" ptSample pwGood ivSample).path =
      "backup.zip" ++ ".aes" ∧
    (encrypt_file "backup.zip" ptSample pwGood ivSample).path ≠
      "backup.zip" ∧
    (encrypt_file "backup.zip" ptSample pwGood ivSample).content =
      ivSample ++ cbcEncrypt (derive_key pwGood) ivSample
        (pkcsPad ptSample) ∧
    decrypt_file (encrypt_file "backup.zip" ptSample pwGood ivSample).path
        (encrypt_file "backup.zip" ptSample pwGood ivSample).content
        pwGood =
      Except.ok ("backup.zip", ptSample) :=
  encrypt_decrypt_roundtrip "backup.zip" ptSample pwGood ivSample
    (by unfold BytesLt; decide) (by decide) (by unfold BytesLt; decide)

/-- C7: decryption fails with the same fatal exit status 1 when the file is
under 16 bytes (too short to contain an IV), when the ciphertext part's
length is invalid, and when unpadding fails (wrong password or corrupted
data); every failure exits with the same status, so the caller cannot
distinguish the cause. -/
theorem decrypt_single_failure_condition (fp : String)
    (data password : List Nat) :
    (data.length < 16 → decrypt_file fp data password = Except.error 1) ∧
    (16 ≤ data.length → (data.length - 16) % 16 ≠ 0 →
      decrypt_file fp data password = Except.error 1) ∧
    (16 ≤ data.length →
      pkcsUnpad (cbcDecrypt (derive_key password) (data.take 16)
        (data.drop 16)) = none →
      decrypt_file fp data password = Except.error 1) ∧
    (∀ c, decrypt_file fp data password = Except.error c → c = 1) := by
  refine ⟨?_, ?_, ?_, ?_⟩
  · intro h
    unfold decrypt_file
    rw [if_pos h]
  · intro h1 h2
    unfold decrypt_file
    rw [if_neg (by omega)]
    have hbne : ((data.drop 16).length % 16 != 0) = true := by
      simp [List.length_drop]
      exact h2
    rw [hbne]
    simp
  · intro h1 h2
    unfold decrypt_file
    rw [if_neg (by omega)]
    split
    · rfl
    · rw [h2]
  · intro c h
    unfold decrypt_file at h
    split at h
    · exact (Except.error.injEq _ _ ▸ congrArg id h : (1 : Nat) = c).symm
    · split at h
      · exact (Except.error.injEq _ _ ▸ congrArg id h : (1 : Nat) = c).symm
      · split at h
        · exact (Except.error.injEq _ _ ▸ congrArg id h : (1 : Nat) = c).symm
        · exact absurd h (by simp)

/-- Concrete failing instances: a 3-byte file, a file whose ciphertext part
has invalid length, and a 32-byte file whose unpadding fails, all exit with
status 1. -/
theorem decrypt_single_failure_condition_witness :
    decrypt_file "a.aes" [1, 2, 3] pwGood = Except.error 1 ∧
    decrypt_file "b.aes" (List.replicate 17 0) pwGood = Except.error 1 ∧
    decrypt_file "c.aes" (List.replicate 32 0) pwGood = Except.error 1 :=
  ⟨(decrypt_single_failure_condition "a.aes" [1, 2, 3] pwGood).1 (by decide),
   (decrypt_single_failure_condition "b.aes" (List.replicate 17 0)
      pwGood).2.1 (by decide) (by decide),
   (decrypt_single_failure_condition "c.aes" (List.replicate 32 0)
      pwGood).2.2.1 (by decide) (by decide)⟩
